import Mathlib

/-!
# Verification of the `graph` directed-graph library

Shallow embedding of `src/include/graph/graph.hpp`:

* `graph::DirectedGraph` (mutable adjacency-list graph) is embedded as an
  association list from node id to successor list.  The C++ `unordered_map` /
  `unordered_set` have unspecified iteration order; the embedding fixes the
  (arbitrary) order to insertion order, which is one valid instantiation.
  `NodeID` (`std::uint16_t`) is embedded as `Nat`: node ids are opaque labels,
  no claim performs arithmetic on them.
* `graph::CompiledGraph` (CSR-style compacted graph) is embedded with an
  `offsets` list and a flat `destinations` list, built exactly as the C++
  constructor does: iterate ids `0 .. max_node_id`, sort each successor set,
  concatenate.  `std::ranges::sort` is modelled by `List.insertionSort`
  (any sorting algorithm realises its contract), and
  `std::ranges::binary_search` over the sorted successor range is modelled by
  its standard-library contract — membership in the (sorted) range.
* The traversal views `dfs_view_t` / `bfs_view_t` / `topological_view_t` are
  embedded as functions producing the full emitted sequence.  The lazily
  advanced iterators always terminate (finitely many node ids can become
  visited), which the embedding realises with an explicit fuel parameter;
  every top-level wrapper passes fuel that provably exceeds the number of
  loop iterations, so the embedded sequence is exactly the emitted sequence.
-/

namespace GraphSpec

abbrev NodeID := Nat

/-- `graph::Edge` : an ordered pair `(from, to)`. -/
structure Edge where
  fst : NodeID
  snd : NodeID
deriving DecidableEq, Repr

/-! ## `graph::DirectedGraph` (mutable adjacency-list graph) -/

/-- The mutable graph: `std::unordered_map<NodeID, std::unordered_set<NodeID>>`
embedded as an association list (key order = insertion order, successor-set
order = insertion order). -/
structure DirectedGraph where
  adjacency_list : List (NodeID × List NodeID)
deriving DecidableEq, Repr

namespace DirectedGraph

/-- The empty graph (default-constructed `DirectedGraph`). -/
def empty : DirectedGraph := ⟨[]⟩

/-- `adjacency_list_[from].insert(to)` : find the entry for `from` and insert
`to` into its successor set (no-op if present); if `from` has no entry yet,
create one holding exactly `to`. -/
def insertSucc : List (NodeID × List NodeID) → NodeID → NodeID → List (NodeID × List NodeID)
  | [], a, b => [(a, [b])]
  | (k, l) :: rest, a, b =>
    if k = a then (k, if b ∈ l then l else l ++ [b]) :: rest
    else (k, l) :: insertSucc rest a b

/-- `adjacency_list_[to];` : ensure the key `to` exists (empty successor set if
it was absent). -/
def ensureKey (adj : List (NodeID × List NodeID)) (b : NodeID) : List (NodeID × List NodeID) :=
  if b ∈ adj.map Prod.fst then adj else adj ++ [(b, [])]

/-- `DirectedGraph::add_edge`. -/
def add_edge (g : DirectedGraph) (a b : NodeID) : DirectedGraph :=
  ⟨ensureKey (insertSucc g.adjacency_list a b) b⟩

/-- Helper for `remove_edge`: erase `to` from the successor set of the entry
for `from`, if that entry exists. -/
def removeSucc : List (NodeID × List NodeID) → NodeID → NodeID → List (NodeID × List NodeID)
  | [], _, _ => []
  | (k, l) :: rest, a, b =>
    if k = a then (k, l.erase b) :: rest
    else (k, l) :: removeSucc rest a b

/-- `DirectedGraph::remove_edge`. -/
def remove_edge (g : DirectedGraph) (a b : NodeID) : DirectedGraph :=
  ⟨removeSucc g.adjacency_list a b⟩

/-- `adjacency_list_.find(from)` embedded as association-list lookup. -/
def findEntry (g : DirectedGraph) (a : NodeID) : Option (List NodeID) :=
  (g.adjacency_list.find? (fun e => e.1 = a)).map Prod.snd

/-- `DirectedGraph::has_edge`. -/
def has_edge (g : DirectedGraph) (a b : NodeID) : Bool :=
  match g.findEntry a with
  | some l => l.contains b
  | none => false

/-- `DirectedGraph::successors` (returns the stored set, or the static empty
set when the node is unknown). -/
def successors (g : DirectedGraph) (a : NodeID) : List NodeID :=
  match g.findEntry a with
  | some l => l
  | none => []

/-- `DirectedGraph::nodes` (the keys view of the adjacency map). -/
def nodes (g : DirectedGraph) : List NodeID :=
  g.adjacency_list.map Prod.fst

/-- `DirectedGraph::node_count`. -/
def node_count (g : DirectedGraph) : Nat :=
  g.adjacency_list.length

/-- `DirectedGraph::edge_count` (sum of the successor-set sizes). -/
def edge_count (g : DirectedGraph) : Nat :=
  (g.adjacency_list.map (fun e => e.2.length)).sum

/-- Well-formedness maintained by construction in C++ (`unordered_map` keys are
unique; `unordered_set` members are unique; `add_edge` inserts every edge
destination as a key): unique keys, duplicate-free successor sets, and every
successor present as a key. -/
def Wf (g : DirectedGraph) : Prop :=
  g.nodes.Nodup ∧
  (∀ e ∈ g.adjacency_list, e.2.Nodup) ∧
  (∀ e ∈ g.adjacency_list, ∀ m ∈ e.2, m ∈ g.nodes)

instance (g : DirectedGraph) : Decidable g.Wf := by
  unfold Wf
  infer_instance

/-- The closure invariant of claim C10: every edge destination is a key. -/
def Inv (g : DirectedGraph) : Prop :=
  ∀ e ∈ g.adjacency_list, ∀ m ∈ e.2, m ∈ g.nodes

instance (g : DirectedGraph) : Decidable g.Inv := by
  unfold Inv
  infer_instance

/-- States reachable by a finite sequence of `add_edge` / `remove_edge` calls
starting from the (empty) default-constructed graph. -/
inductive Reachable : DirectedGraph → Prop
  | empty : Reachable DirectedGraph.empty
  | add {g} (a b : NodeID) : Reachable g → Reachable (g.add_edge a b)
  | remove {g} (a b : NodeID) : Reachable g → Reachable (g.remove_edge a b)

/-- The successor view as a function (what the traversal views consume through
the `DirectedGraphLike` concept). -/
def succFn (g : DirectedGraph) : NodeID → List NodeID := fun n => g.successors n

/-- The `max_node_id_` computation of the `CompiledGraph` constructor: maximum
key, starting from 0. -/
def maxNodeId (g : DirectedGraph) : NodeID := g.nodes.foldl max 0

/-- A node's successor set, sorted ascending (`std::ranges::sort` modelled by
insertion sort — any sorting algorithm realises its contract). -/
def sortedSucc (g : DirectedGraph) (n : NodeID) : List NodeID :=
  (g.successors n).insertionSort (· ≤ ·)

/-- The running offset of the compilation loop just before node `k`'s sorted
successors are appended: the total length contributed by ids `0 .. k-1`. -/
def offsetSum (g : DirectedGraph) (k : Nat) : Nat :=
  ((List.range k).map (fun i => (g.sortedSucc i).length)).sum

end DirectedGraph

/-! ## `graph::CompiledGraph` (compact CSR representation) -/

/-- The compiled graph: `offsets_`, `destinations_`, `max_node_id_`. -/
structure CompiledGraph where
  offsets : List Nat
  destinations : List NodeID
  max_node_id : NodeID
deriving DecidableEq, Repr

/-- The `CompiledGraph` constructor: iterate ids `0 .. max_node_id` in
ascending order; `offsets_[n]` is the running length of `destinations_` before
node `n`'s (sorted) successors are appended; the sentinel entry
`offsets_[max_node_id + 1]` is the total length. -/
def DirectedGraph.compile (g : DirectedGraph) : CompiledGraph :=
  let m := g.maxNodeId
  { offsets := (List.range (m + 2)).map
      (fun k => ((List.range k).map (fun i => (g.sortedSucc i).length)).sum)
    destinations := (List.range (m + 1)).flatMap g.sortedSucc
    max_node_id := m }

namespace CompiledGraph

/-- `CompiledGraph::successors` : the contiguous slice
`[offsets_[node], offsets_[node+1])` of `destinations_`; empty for ids beyond
`max_node_id_`. -/
def successors (c : CompiledGraph) (n : NodeID) : List NodeID :=
  if n ≤ c.max_node_id then
    (c.destinations.drop (c.offsets.getD n 0)).take
      (c.offsets.getD (n + 1) 0 - c.offsets.getD n 0)
  else []

/-- `CompiledGraph::has_edge` : `std::ranges::binary_search` over the sorted
successor slice, modelled by its standard contract — membership in the
(sorted) range. -/
def has_edge (c : CompiledGraph) (a b : NodeID) : Bool :=
  (c.successors a).contains b

/-- `CompiledGraph::out_degree`. -/
def out_degree (c : CompiledGraph) (n : NodeID) : Nat := (c.successors n).length

/-- `CompiledGraph::nodes` : ids `0 .. max_node_id` that have an outgoing edge
or appear as a destination. -/
def nodes (c : CompiledGraph) : List NodeID :=
  (List.range (c.max_node_id + 1)).filter
    (fun n => (c.offsets.getD n 0 != c.offsets.getD (n + 1) 0) || c.destinations.contains n)

/-- `CompiledGraph::node_count`. -/
def node_count (c : CompiledGraph) : Nat := c.nodes.length

/-- `CompiledGraph::edge_count`. -/
def edge_count (c : CompiledGraph) : Nat := c.destinations.length

/-- The successor view as a function. -/
def succFn (c : CompiledGraph) : NodeID → List NodeID := fun n => c.successors n

end CompiledGraph

/-! ## Traversal views (`graph::view`)

Each view is embedded as the full sequence of node ids its iterator emits.
The loops are driven by an explicit fuel parameter; one unit of fuel is spent
per emitted node, and every wrapper passes fuel strictly larger than the
number of ids that can ever be marked visited, which provably exceeds the
number of emissions. -/

/-- `dfs_view_t::iterator::advance_to_next` : pop stack entries until an
unvisited one is found (or the stack empties); mark it visited, emit it, and
push those of its successors not yet visited, in successor order (so the last
successor ends on top of the stack). -/
def dfsAux (succ : NodeID → List NodeID) : Nat → List NodeID → List NodeID → List NodeID
  | 0, _, _ => []
  | fuel + 1, stack, visited =>
    match stack.dropWhile (fun n => visited.contains n) with
    | [] => []
    | n :: rest =>
      n :: dfsAux succ fuel
        (((succ n).filter (fun s => !((n :: visited).contains s))).reverse ++ rest)
        (n :: visited)

/-- The reference DFS of the specification: identical, except that ALL
successors are pushed regardless of visited status (duplicate detection only
at pop time). -/
def dfsSpecAux (succ : NodeID → List NodeID) : Nat → List NodeID → List NodeID → List NodeID
  | 0, _, _ => []
  | fuel + 1, stack, visited =>
    match stack.dropWhile (fun n => visited.contains n) with
    | [] => []
    | n :: rest =>
      n :: dfsSpecAux succ fuel ((succ n).reverse ++ rest) (n :: visited)

/-- `bfs_view_t::iterator` : dequeue a node and emit it; enqueue each
not-yet-visited successor, marking it visited at enqueue time.  The emitted
sequence is the dequeue order. -/
def bfsAux (succ : NodeID → List NodeID) : Nat → List NodeID → List NodeID → List NodeID
  | 0, _, _ => []
  | _ + 1, [], _ => []
  | fuel + 1, n :: rest, visited =>
    let p := (succ n).foldl
      (fun (p : List NodeID × List NodeID) s =>
        if p.1.contains s then p else (s :: p.1, p.2 ++ [s]))
      (visited, rest)
    n :: bfsAux succ fuel p.2 p.1

/-- The loop of `topological_view_t`'s constructor (Kahn's algorithm):
dequeue a node, append it to the result, decrement each successor's in-degree
and enqueue any successor whose in-degree just reached zero. -/
def kahnAux (succ : NodeID → List NodeID) : Nat → List NodeID → (NodeID → Int) → List NodeID
  | 0, _, _ => []
  | _ + 1, [], _ => []
  | fuel + 1, n :: rest, indeg =>
    let p := (succ n).foldl
      (fun (p : (NodeID → Int) × List NodeID) s =>
        ((fun m => if m = s then p.1 m - 1 else p.1 m),
         if p.1 s - 1 = 0 then p.2 ++ [s] else p.2))
      (indeg, rest)
    n :: kahnAux succ fuel p.2 p.1

/-- `in_degree[successor]++` over one successor list. -/
def incrAll (l : List NodeID) (d : NodeID → Int) : NodeID → Int :=
  l.foldl (fun d s => fun m => if m = s then d m + 1 else d m) d

/-- The in-degree map after initialisation: all nodes start at 0, then every
node's successor list bumps its members. -/
def topoInDeg (nodes : List NodeID) (succ : NodeID → List NodeID) : NodeID → Int :=
  nodes.foldl (fun d n => incrAll (succ n) d) (fun _ => 0)

/-- The initial queue: all nodes of in-degree zero (the embedding fixes the
unspecified `unordered_map` iteration order to the `nodes()` order). -/
def topoSeed (nodes : List NodeID) (succ : NodeID → List NodeID) : List NodeID :=
  nodes.filter (fun n => topoInDeg nodes succ n == 0)

/-- `topological_view_t::topological_view_t` : the emitted `sorted_nodes_`. -/
def topologicalList (nodes : List NodeID) (succ : NodeID → List NodeID) : List NodeID :=
  kahnAux succ (nodes.length + 2) (topoSeed nodes succ) (topoInDeg nodes succ)

/-! ### Wrappers instantiating the views at the two representations -/

/-- DFS over the mutable graph.  Fuel: one emission marks one new id visited,
and at most `node_count + 1` ids (the nodes plus the start id) can become
visited. -/
def DirectedGraph.dfsList (g : DirectedGraph) (start : NodeID) : List NodeID :=
  dfsAux g.succFn (g.node_count + 2) [start] []

/-- The reference (spec) DFS over the mutable graph. -/
def DirectedGraph.dfsSpecList (g : DirectedGraph) (start : NodeID) : List NodeID :=
  dfsSpecAux g.succFn (g.node_count + 2) [start] []

/-- BFS over the mutable graph (start is visited and enqueued on
construction). -/
def DirectedGraph.bfsList (g : DirectedGraph) (start : NodeID) : List NodeID :=
  bfsAux g.succFn (g.node_count + 2) [start] [start]

/-- Topological view over the mutable graph. -/
def DirectedGraph.topoList (g : DirectedGraph) : List NodeID :=
  topologicalList g.nodes g.succFn

/-- `topological_view_t::is_valid()` : `!sorted_nodes_.empty()`. -/
def DirectedGraph.topo_is_valid (g : DirectedGraph) : Bool :=
  !(g.topoList.isEmpty)

/-- DFS over the compiled graph. -/
def CompiledGraph.dfsList (c : CompiledGraph) (start : NodeID) : List NodeID :=
  dfsAux c.succFn (c.node_count + 2) [start] []

/-- The reference (spec) DFS over the compiled graph. -/
def CompiledGraph.dfsSpecList (c : CompiledGraph) (start : NodeID) : List NodeID :=
  dfsSpecAux c.succFn (c.node_count + 2) [start] []

/-- BFS over the compiled graph. -/
def CompiledGraph.bfsList (c : CompiledGraph) (start : NodeID) : List NodeID :=
  bfsAux c.succFn (c.node_count + 2) [start] [start]

/-- Topological view over the compiled graph. -/
def CompiledGraph.topoList (c : CompiledGraph) : List NodeID :=
  topologicalList c.nodes c.succFn

/-- `topological_view_t::is_valid()` over the compiled graph. -/
def CompiledGraph.topo_is_valid (c : CompiledGraph) : Bool :=
  !(c.topoList.isEmpty)

/-! ## Reachability, cycles, and topological-order predicates -/

/-- One directed edge step through the successor view. -/
def Step (succ : NodeID → List NodeID) (a b : NodeID) : Prop := b ∈ succ a

/-- Reachability: reflexive-transitive closure of edge steps. -/
def ReachesF (succ : NodeID → List NodeID) (a b : NodeID) : Prop :=
  Relation.ReflTransGen (Step succ) a b

/-- Reachability in the mutable graph. -/
def DirectedGraph.Reaches (g : DirectedGraph) (a b : NodeID) : Prop :=
  ReachesF g.succFn a b

/-- Reachability in the compiled graph. -/
def CompiledGraph.Reaches (c : CompiledGraph) (a b : NodeID) : Prop :=
  ReachesF c.succFn a b

/-- The graph contains a directed cycle (a nonempty edge path from some node
back to itself). -/
def HasCycleF (nodes : List NodeID) (succ : NodeID → List NodeID) : Prop :=
  ∃ n ∈ nodes, Relation.TransGen (Step succ) n n

/-- Cycle existence in the mutable graph. -/
def DirectedGraph.HasCycle (g : DirectedGraph) : Prop :=
  HasCycleF g.nodes g.succFn

/-- Cycle existence in the compiled graph. -/
def CompiledGraph.HasCycle (c : CompiledGraph) : Prop :=
  HasCycleF c.nodes c.succFn

/-- The in-`U` predecessors of `m`. -/
def predsIn (U : Finset NodeID) (succ : NodeID → List NodeID) (m : NodeID) : Finset NodeID :=
  U.filter (fun p => m ∈ succ p)

/-- `GoodOrder U succ done l` : each member of `l` has all of its in-`U`
predecessors in `done` or earlier in `l`. -/
def GoodOrder (U : Finset NodeID) (succ : NodeID → List NodeID) :
    Finset NodeID → List NodeID → Prop
  | _, [] => True
  | done, n :: rest => predsIn U succ n ⊆ done ∧ GoodOrder U succ (insert n done) rest

/-- The test fixture of the repository: edges 0→1, 1→2, 0→2 and the self-loop
3→3, added in that order. -/
def gEx : DirectedGraph :=
  (((DirectedGraph.empty.add_edge 0 1).add_edge 1 2).add_edge 0 2).add_edge 3 3

/-- The same edge set as `gEx`, inserted in a different order. -/
def gEx2 : DirectedGraph :=
  (((DirectedGraph.empty.add_edge 3 3).add_edge 0 1).add_edge 1 2).add_edge 0 2

/-! ### Basic lemmas about the mutable graph operations -/

namespace DirectedGraph

theorem findEntry_eq_none {g : DirectedGraph} {a : NodeID} (h : a ∉ g.nodes) :
    g.findEntry a = none := by
  unfold findEntry
  rw [List.find?_eq_none.mpr]
  · rfl
  · intro e he hea
    apply h
    unfold nodes
    rw [List.mem_map]
    exact ⟨e, he, by simpa using hea⟩

theorem successors_eq_nil {g : DirectedGraph} {a : NodeID} (h : a ∉ g.nodes) :
    g.successors a = [] := by
  unfold successors
  rw [findEntry_eq_none h]

theorem has_edge_eq_false {g : DirectedGraph} {a : NodeID} (h : a ∉ g.nodes) (b : NodeID) :
    g.has_edge a b = false := by
  unfold has_edge
  rw [findEntry_eq_none h]

/-- Keys of `removeSucc` are the original keys. -/
theorem removeSucc_map_fst (adj : List (NodeID × List NodeID)) (a b : NodeID) :
    (removeSucc adj a b).map Prod.fst = adj.map Prod.fst := by
  induction adj with
  | nil => rfl
  | cons e rest ih =>
    obtain ⟨k, l⟩ := e
    by_cases hk : k = a <;> simp [removeSucc, hk, ih]

theorem remove_edge_nodes (g : DirectedGraph) (a b : NodeID) :
    (g.remove_edge a b).nodes = g.nodes := by
  unfold remove_edge nodes
  exact removeSucc_map_fst g.adjacency_list a b

theorem removeSucc_length (adj : List (NodeID × List NodeID)) (a b : NodeID) :
    (removeSucc adj a b).length = adj.length := by
  induction adj with
  | nil => rfl
  | cons e rest ih =>
    obtain ⟨k, l⟩ := e
    by_cases hk : k = a <;> simp [removeSucc, hk, ih]

theorem remove_edge_node_count (g : DirectedGraph) (a b : NodeID) :
    (g.remove_edge a b).node_count = g.node_count := by
  unfold remove_edge node_count
  exact removeSucc_length g.adjacency_list a b

/-- `removeSucc` modifies exactly the first entry whose key is `a`, erasing `b`
from its successor list. -/
theorem find?_removeSucc_self (adj : List (NodeID × List NodeID)) (a b : NodeID) :
    ((removeSucc adj a b).find? (fun e => e.1 = a)) =
      (adj.find? (fun e => e.1 = a)).map (fun e => (e.1, e.2.erase b)) := by
  induction adj with
  | nil => rfl
  | cons e rest ih =>
    obtain ⟨k, l⟩ := e
    by_cases hk : k = a
    · subst hk
      simp [removeSucc, List.find?]
    · simp only [removeSucc, if_neg hk]
      rw [List.find?_cons_of_neg, List.find?_cons_of_neg, ih] <;> simpa

theorem findEntry_remove_edge_self (g : DirectedGraph) (a b : NodeID) :
    (g.remove_edge a b).findEntry a = (g.findEntry a).map (fun l => l.erase b) := by
  unfold findEntry remove_edge
  rw [find?_removeSucc_self]
  cases g.adjacency_list.find? (fun e => e.1 = a) <;> rfl

/-- An entry found for key `a` really is a list stored under key `a`. -/
theorem findEntry_mem {g : DirectedGraph} {a : NodeID} {l : List NodeID}
    (h : g.findEntry a = some l) : (a, l) ∈ g.adjacency_list := by
  unfold findEntry at h
  cases hf : g.adjacency_list.find? (fun e => e.1 = a) with
  | none => rw [hf] at h; exact absurd h (by simp)
  | some e =>
    rw [hf] at h
    have hm := List.mem_of_find?_eq_some hf
    have hp := List.find?_some hf
    have h1 : e.1 = a := by simpa using hp
    have h2 : e.2 = l := by simpa using h
    have : (a, l) = e := by rw [← h1, ← h2]
    rwa [this]

theorem has_edge_remove_edge_self (g : DirectedGraph) (hw : g.Wf) (a b : NodeID) :
    (g.remove_edge a b).has_edge a b = false := by
  unfold has_edge
  rw [findEntry_remove_edge_self]
  cases hf : g.findEntry a with
  | none => rfl
  | some l =>
    have hmem := findEntry_mem hf
    have hnd : l.Nodup := hw.2.1 (a, l) hmem
    show (l.erase b).contains b = false
    simp [List.Nodup.mem_erase_iff hnd]

theorem removeSucc_noop : ∀ (adj : List (NodeID × List NodeID)) (a b : NodeID),
    (∀ e, adj.find? (fun e => e.1 = a) = some e → b ∉ e.2) →
    removeSucc adj a b = adj := by
  intro adj a b
  induction adj with
  | nil => intro _; rfl
  | cons e0 rest ih =>
    obtain ⟨k, l⟩ := e0
    intro h
    by_cases hk : k = a
    · subst hk
      have hb : b ∉ l := by
        have := h (k, l) (by rw [List.find?_cons_of_pos] ; simp)
        simpa using this
      simp [removeSucc, List.erase_of_not_mem hb]
    · simp only [removeSucc, if_neg hk, List.cons.injEq, true_and]
      apply ih
      intro e' he'
      apply h
      rw [List.find?_cons_of_neg]
      · exact he'
      · simpa using hk

/-- Removing an absent edge (including an unknown source) leaves the state
unchanged. -/
theorem remove_edge_noop {g : DirectedGraph} {a b : NodeID}
    (h : g.has_edge a b = false) : g.remove_edge a b = g := by
  unfold remove_edge
  have : removeSucc g.adjacency_list a b = g.adjacency_list := by
    apply removeSucc_noop
    intro e he
    unfold has_edge findEntry at h
    rw [he] at h
    simpa using h
  rw [this]

/-! ### Invariant preservation for `add_edge` / `remove_edge` -/

theorem insertSucc_map_fst (adj : List (NodeID × List NodeID)) (a b : NodeID) :
    (insertSucc adj a b).map Prod.fst =
      (if a ∈ adj.map Prod.fst then adj.map Prod.fst else adj.map Prod.fst ++ [a]) := by
  induction adj with
  | nil => simp [insertSucc]
  | cons e rest ih =>
    obtain ⟨k, l⟩ := e
    by_cases hk : k = a
    · subst hk
      simp [insertSucc]
    · simp only [insertSucc, if_neg hk, List.map_cons, ih]
      have : a ∈ (k, l).fst :: rest.map Prod.fst ↔ a ∈ rest.map Prod.fst := by
        simp [Ne.symm hk]
      by_cases hmem : a ∈ rest.map Prod.fst <;> simp [hmem, Ne.symm hk]

theorem ensureKey_map_fst (adj : List (NodeID × List NodeID)) (b : NodeID) :
    (ensureKey adj b).map Prod.fst =
      (if b ∈ adj.map Prod.fst then adj.map Prod.fst else adj.map Prod.fst ++ [b]) := by
  unfold ensureKey
  by_cases h : b ∈ adj.map Prod.fst <;> simp [h]

theorem nodes_subset_add_edge (g : DirectedGraph) (a b : NodeID) :
    ∀ n ∈ g.nodes, n ∈ (g.add_edge a b).nodes := by
  intro n hn
  unfold add_edge nodes at *
  rw [ensureKey_map_fst, insertSucc_map_fst]
  by_cases h1 : a ∈ g.adjacency_list.map Prod.fst <;>
    by_cases h2 : b ∈ (insertSucc g.adjacency_list a b).map Prod.fst <;>
      rw [insertSucc_map_fst] at h2 <;> simp_all

theorem mem_nodes_add_edge_snd (g : DirectedGraph) (a b : NodeID) :
    b ∈ (g.add_edge a b).nodes := by
  unfold add_edge nodes
  rw [ensureKey_map_fst]
  by_cases h : b ∈ (insertSucc g.adjacency_list a b).map Prod.fst <;> simp [h]

/-- Every successor stored after `insertSucc` was already stored under the same
key, or is the newly inserted `b`. -/
theorem insertSucc_mem_succ : ∀ (adj : List (NodeID × List NodeID)) (a b : NodeID),
    ∀ e ∈ insertSucc adj a b, ∀ m ∈ e.2,
      (∃ e' ∈ adj, e'.1 = e.1 ∧ m ∈ e'.2) ∨ m = b := by
  intro adj a b
  induction adj with
  | nil =>
    intro e he m hm
    simp only [insertSucc, List.mem_singleton] at he
    subst he
    have hm' : m ∈ [b] := hm
    exact Or.inr (by simpa using hm')
  | cons e0 rest ih =>
    obtain ⟨k, l⟩ := e0
    intro e he m hm
    by_cases hk : k = a
    · subst hk
      simp only [insertSucc, if_pos rfl] at he
      rcases List.mem_cons.mp he with he1 | he1
      · by_cases hb : b ∈ l
        · rw [if_pos hb] at he1
          subst he1
          exact Or.inl ⟨(k, l), List.mem_cons_self _ _, rfl, hm⟩
        · rw [if_neg hb] at he1
          subst he1
          have hm' : m ∈ l ++ [b] := hm
          rcases List.mem_append.mp hm' with h1 | h1
          · exact Or.inl ⟨(k, l), List.mem_cons_self _ _, rfl, h1⟩
          · exact Or.inr (by simpa using h1)
      · exact Or.inl ⟨e, List.mem_cons_of_mem _ he1, rfl, hm⟩
    · simp only [insertSucc, if_neg hk] at he
      rcases List.mem_cons.mp he with he1 | he1
      · subst he1
        exact Or.inl ⟨(k, l), List.mem_cons_self _ _, rfl, hm⟩
      · rcases ih e he1 m hm with ⟨e', he', hk', hm'⟩ | hb
        · exact Or.inl ⟨e', List.mem_cons_of_mem _ he', hk', hm'⟩
        · exact Or.inr hb

theorem ensureKey_mem (adj : List (NodeID × List NodeID)) (b : NodeID) :
    ∀ e ∈ ensureKey adj b, e ∈ adj ∨ e = (b, []) := by
  intro e he
  unfold ensureKey at he
  by_cases h : b ∈ adj.map Prod.fst
  · rw [if_pos h] at he; exact Or.inl he
  · rw [if_neg h] at he
    rcases List.mem_append.mp he with h1 | h1
    · exact Or.inl h1
    · simp at h1; exact Or.inr h1

theorem add_edge_inv (g : DirectedGraph) (a b : NodeID) (hg : g.Inv) :
    (g.add_edge a b).Inv := by
  intro e he m hm
  rcases ensureKey_mem _ b e he with he' | he'
  · rcases insertSucc_mem_succ g.adjacency_list a b e he' m hm with ⟨e', he'', _, hm'⟩ | hb
    · exact nodes_subset_add_edge g a b m (hg e' he'' m hm')
    · rw [hb]
      exact mem_nodes_add_edge_snd g a b
  · subst he'
    simp at hm

theorem removeSucc_mem : ∀ (adj : List (NodeID × List NodeID)) (a b : NodeID),
    ∀ e ∈ removeSucc adj a b, ∃ e' ∈ adj, e.1 = e'.1 ∧ ∀ m ∈ e.2, m ∈ e'.2 := by
  intro adj a b
  induction adj with
  | nil => intro e he; simp [removeSucc] at he
  | cons e0 rest ih =>
    obtain ⟨k, l⟩ := e0
    intro e he
    by_cases hk : k = a
    · subst hk
      simp only [removeSucc, if_pos rfl] at he
      rcases List.mem_cons.mp he with he1 | he1
      · subst he1
        exact ⟨(k, l), List.mem_cons_self _ _, rfl, fun m hm => List.erase_subset _ _ hm⟩
      · exact ⟨e, List.mem_cons_of_mem _ he1, rfl, fun m hm => hm⟩
    · simp only [removeSucc, if_neg hk] at he
      rcases List.mem_cons.mp he with he1 | he1
      · subst he1
        exact ⟨(k, l), List.mem_cons_self _ _, rfl, fun m hm => hm⟩
      · obtain ⟨e', he', h1, h2⟩ := ih e he1
        exact ⟨e', List.mem_cons_of_mem _ he', h1, h2⟩

theorem remove_edge_inv (g : DirectedGraph) (a b : NodeID) (hg : g.Inv) :
    (g.remove_edge a b).Inv := by
  intro e he m hm
  obtain ⟨e', he', _, hsub⟩ := removeSucc_mem g.adjacency_list a b e he
  rw [remove_edge_nodes]
  exact hg e' he' m (hsub m hm)

theorem empty_inv : DirectedGraph.empty.Inv := by
  intro e he
  simp [DirectedGraph.empty] at he

/-! ### Successor / edge-query lemmas -/

theorem has_edge_iff_mem {g : DirectedGraph} {a b : NodeID} :
    g.has_edge a b = true ↔ b ∈ g.successors a := by
  unfold has_edge successors
  cases g.findEntry a with
  | none => simp
  | some l => simp

theorem mem_nodes_of_findEntry {g : DirectedGraph} {a : NodeID} {l : List NodeID}
    (h : g.findEntry a = some l) : a ∈ g.nodes := by
  unfold nodes
  exact List.mem_map.mpr ⟨(a, l), findEntry_mem h, rfl⟩

theorem succ_closed {g : DirectedGraph} (hw : g.Wf) {a m : NodeID}
    (hm : m ∈ g.successors a) : m ∈ g.nodes := by
  unfold successors at hm
  cases hf : g.findEntry a with
  | none => rw [hf] at hm; exact absurd hm (by simp)
  | some l =>
    rw [hf] at hm
    exact hw.2.2 (a, l) (findEntry_mem hf) m hm

theorem successors_nodup {g : DirectedGraph} (hw : g.Wf) (a : NodeID) :
    (g.successors a).Nodup := by
  unfold successors
  cases hf : g.findEntry a with
  | none => simp
  | some l => exact hw.2.1 (a, l) (findEntry_mem hf)

/-! ### `maxNodeId` bounds -/

theorem foldl_max_init : ∀ (l : List Nat) (a : Nat), a ≤ l.foldl max a := by
  intro l
  induction l with
  | nil => intro a; exact Nat.le_refl a
  | cons x xs ih =>
    intro a
    exact le_trans (Nat.le_max_left a x) (ih (max a x))

theorem foldl_max_mem : ∀ (l : List Nat) (a : Nat), ∀ x ∈ l, x ≤ l.foldl max a := by
  intro l
  induction l with
  | nil => intro a x hx; cases hx
  | cons y ys ih =>
    intro a x hx
    rcases List.mem_cons.mp hx with h | h
    · subst h
      exact le_trans (Nat.le_max_right a x) (foldl_max_init ys _)
    · exact ih _ x h

theorem foldl_max_init_or_mem : ∀ (l : List Nat) (a : Nat),
    l.foldl max a = a ∨ l.foldl max a ∈ l := by
  intro l
  induction l with
  | nil => intro a; exact Or.inl rfl
  | cons y ys ih =>
    intro a
    rcases ih (max a y) with h | h
    · rcases max_choice a y with h2 | h2
      · rw [List.foldl_cons, h, h2]; exact Or.inl rfl
      · rw [List.foldl_cons, h, h2]; exact Or.inr (List.mem_cons_self _ _)
    · exact Or.inr (List.mem_cons_of_mem _ h)

theorem le_maxNodeId {g : DirectedGraph} {n : NodeID} (h : n ∈ g.nodes) :
    n ≤ g.maxNodeId :=
  foldl_max_mem g.nodes 0 n h

theorem not_mem_nodes_of_lt {g : DirectedGraph} {n : NodeID} (h : g.maxNodeId < n) :
    n ∉ g.nodes := fun hm => absurd (le_maxNodeId hm) (Nat.not_le.mpr h)

/-! ### `sortedSucc` -/

theorem sortedSucc_sorted (g : DirectedGraph) (n : NodeID) :
    (g.sortedSucc n).Sorted (· ≤ ·) :=
  List.sorted_insertionSort _ _

theorem sortedSucc_perm (g : DirectedGraph) (n : NodeID) :
    List.Perm (g.sortedSucc n) (g.successors n) :=
  List.perm_insertionSort _ _

theorem mem_sortedSucc {g : DirectedGraph} {n m : NodeID} :
    m ∈ g.sortedSucc n ↔ m ∈ g.successors n :=
  (sortedSucc_perm g n).mem_iff

theorem sortedSucc_nodup {g : DirectedGraph} (hw : g.Wf) (n : NodeID) :
    (g.sortedSucc n).Nodup :=
  ((sortedSucc_perm g n).nodup_iff).mpr (successors_nodup hw n)

theorem sortedSucc_eq_nil_of_not_mem {g : DirectedGraph} {n : NodeID} (h : n ∉ g.nodes) :
    g.sortedSucc n = [] := by
  unfold sortedSucc
  rw [successors_eq_nil h]
  rfl

/-! ### Compilation: offsets and destination slices -/

theorem compile_offsets_getD (g : DirectedGraph) (k : Nat) (h : k < g.maxNodeId + 2) :
    (g.compile).offsets.getD k 0 = g.offsetSum k := by
  show ((List.range (g.maxNodeId + 2)).map
      (fun k => ((List.range k).map (fun i => (g.sortedSucc i).length)).sum)).getD k 0 =
    g.offsetSum k
  rw [List.getD_eq_getElem?_getD, List.getElem?_map, List.getElem?_range h]
  rfl

theorem compile_destinations (g : DirectedGraph) :
    (g.compile).destinations = (List.range (g.maxNodeId + 1)).flatMap g.sortedSucc := rfl

theorem compile_max (g : DirectedGraph) : (g.compile).max_node_id = g.maxNodeId := rfl

theorem range_split (m n : Nat) (h : n ≤ m) :
    List.range (m + 1) = List.range n ++ List.range' n (m + 1 - n) := by
  have key := List.range'_append_1 0 n (m + 1 - n)
  simp only [Nat.zero_add] at key
  rw [List.range_eq_range', List.range_eq_range', key]
  congr 1
  omega

theorem length_flatMap_sum (f : Nat → List NodeID) (l : List Nat) :
    (l.flatMap f).length = (l.map (fun i => (f i).length)).sum := by
  rw [List.length_flatMap]
  congr 1

theorem flatMap_range_drop_take (f : Nat → List NodeID) (m n : Nat) (h : n ≤ m) :
    ((((List.range (m + 1)).flatMap f).drop
        (((List.range n).map (fun i => (f i).length)).sum)).take (f n).length) = f n := by
  rw [range_split m n h, List.flatMap_append]
  rw [← length_flatMap_sum f (List.range n), List.drop_left]
  have h2 : m + 1 - n = (m - n) + 1 := by omega
  rw [h2, List.range'_succ, List.flatMap_cons]
  exact List.take_left _ _

theorem offsetSum_succ_sub (g : DirectedGraph) (n : NodeID) :
    g.offsetSum (n + 1) - g.offsetSum n = (g.sortedSucc n).length := by
  unfold offsetSum
  rw [List.range_succ, List.map_append, List.sum_append]
  simp

theorem compile_successors (g : DirectedGraph) (n : Nat) (h : n ≤ g.maxNodeId) :
    (g.compile).successors n = g.sortedSucc n := by
  unfold CompiledGraph.successors
  rw [compile_max, if_pos h]
  rw [compile_offsets_getD g n (by omega), compile_offsets_getD g (n + 1) (by omega),
    compile_destinations, offsetSum_succ_sub]
  exact flatMap_range_drop_take g.sortedSucc _ n h

theorem compile_successors_gt (g : DirectedGraph) (n : Nat) (h : g.maxNodeId < n) :
    (g.compile).successors n = [] := by
  unfold CompiledGraph.successors
  rw [compile_max, if_neg (Nat.not_le.mpr h)]

/-- The compiled successor view agrees (as a set) with the mutable successor
set, for every id. -/
theorem compile_successors_mem (g : DirectedGraph) (n m : Nat) :
    m ∈ (g.compile).successors n ↔ m ∈ g.successors n := by
  by_cases h : n ≤ g.maxNodeId
  · rw [compile_successors g n h]
    exact mem_sortedSucc
  · rw [compile_successors_gt g n (Nat.not_le.mp h)]
    rw [successors_eq_nil (not_mem_nodes_of_lt (Nat.not_le.mp h))]

theorem compile_offsets (g : DirectedGraph) :
    (g.compile).offsets = (List.range (g.maxNodeId + 2)).map
      (fun k => ((List.range k).map (fun i => (g.sortedSucc i).length)).sum) := rfl

theorem compile_has_edge (g : DirectedGraph) (a b : Nat) :
    (g.compile).has_edge a b = g.has_edge a b := by
  apply Bool.coe_iff_coe.mp
  unfold CompiledGraph.has_edge
  rw [has_edge_iff_mem]
  simp only [List.contains_eq_any_beq, List.any_eq_true, beq_iff_eq]
  constructor
  · rintro ⟨x, hx, rfl⟩
    exact (compile_successors_mem g a b).mp hx
  · intro h
    exact ⟨b, (compile_successors_mem g a b).mpr h, rfl⟩

theorem maxNodeId_congr {g₁ g₂ : DirectedGraph}
    (hnodes : ∀ n : Nat, n ∈ g₁.nodes ↔ n ∈ g₂.nodes) :
    g₁.maxNodeId = g₂.maxNodeId := by
  apply Nat.le_antisymm
  · rcases foldl_max_init_or_mem g₁.nodes 0 with h | h
    · show g₁.nodes.foldl max 0 ≤ _
      rw [h]
      exact Nat.zero_le _
    · exact le_maxNodeId ((hnodes _).mp h)
  · rcases foldl_max_init_or_mem g₂.nodes 0 with h | h
    · show g₂.nodes.foldl max 0 ≤ _
      rw [h]
      exact Nat.zero_le _
    · exact le_maxNodeId ((hnodes _).mpr h)

theorem sortedSucc_congr {g₁ g₂ : DirectedGraph} (h₁ : g₁.Wf) (h₂ : g₂.Wf)
    (hedges : ∀ a b : Nat, g₁.has_edge a b = g₂.has_edge a b) (i : Nat) :
    g₁.sortedSucc i = g₂.sortedSucc i := by
  apply List.eq_of_perm_of_sorted _ (sortedSucc_sorted g₁ i) (sortedSucc_sorted g₂ i)
  rw [List.perm_ext_iff_of_nodup (sortedSucc_nodup h₁ i) (sortedSucc_nodup h₂ i)]
  intro b
  rw [mem_sortedSucc, mem_sortedSucc, ← has_edge_iff_mem, ← has_edge_iff_mem, hedges i b]

end DirectedGraph

open DirectedGraph

/-! ## Claims about the mutable graph and compilation -/

/-- C8: for every mutable graph state and pair `(a, b)`, after
`remove_edge(a,b)` the edge is gone, the node count and the node sequence are
unchanged, and removing a missing edge (or from an unknown source) is a
silent no-op. -/
theorem claim_C8 (g : DirectedGraph) (hw : g.Wf) (a b : Nat) :
    (g.remove_edge a b).has_edge a b = false ∧
    (g.remove_edge a b).node_count = g.node_count ∧
    (g.remove_edge a b).nodes = g.nodes ∧
    (g.has_edge a b = false → g.remove_edge a b = g) :=
  ⟨has_edge_remove_edge_self g hw a b, remove_edge_node_count g a b,
   remove_edge_nodes g a b, fun h => remove_edge_noop h⟩

theorem claim_C8_witness :
    gEx.Wf ∧
    ((gEx.remove_edge 0 2).has_edge 0 2 = false ∧
     (gEx.remove_edge 0 2).node_count = gEx.node_count ∧
     (gEx.remove_edge 0 2).nodes = gEx.nodes ∧
     (gEx.has_edge 0 2 = false → gEx.remove_edge 0 2 = gEx)) :=
  ⟨by decide, claim_C8 gEx (by decide) 0 2⟩

/-- C10: every state reachable from the empty graph by `add_edge` /
`remove_edge` satisfies the invariant that every successor-set member is a key
of the adjacency map, and both operations preserve that invariant. -/
theorem claim_C10 :
    (∀ g : DirectedGraph, DirectedGraph.Reachable g → g.Inv) ∧
    (∀ (g : DirectedGraph) (a b : NodeID), g.Inv →
      (g.add_edge a b).Inv ∧ (g.remove_edge a b).Inv) := by
  constructor
  · intro g hg
    induction hg with
    | empty => exact empty_inv
    | add a b _ ih => exact add_edge_inv _ a b ih
    | remove a b _ ih => exact remove_edge_inv _ a b ih
  · intro g a b hg
    exact ⟨add_edge_inv g a b hg, remove_edge_inv g a b hg⟩

theorem claim_C10_witness :
    gEx.Inv ∧ (gEx.add_edge 2 5).Inv ∧ (gEx.remove_edge 0 1).Inv := by
  have hr : DirectedGraph.Reachable gEx := by
    apply DirectedGraph.Reachable.add
    apply DirectedGraph.Reachable.add
    apply DirectedGraph.Reachable.add
    apply DirectedGraph.Reachable.add
    exact DirectedGraph.Reachable.empty
  have h1 := claim_C10.1 gEx hr
  exact ⟨h1, (claim_C10.2 gEx 2 5 h1).1, (claim_C10.2 gEx 0 1 h1).2⟩

/-- C7: querying an unknown node is never an error: on the mutable graph an
unknown `from` yields an empty successor view and a false `has_edge`; on the
compiled graph any id beyond `max_node_id` yields an empty successor view and
a false `has_edge`. -/
theorem claim_C7 :
    (∀ (g : DirectedGraph) (n b : Nat), n ∉ g.nodes →
        g.successors n = [] ∧ g.has_edge n b = false) ∧
    (∀ (c : CompiledGraph) (n b : Nat), c.max_node_id < n →
        c.successors n = [] ∧ c.has_edge n b = false) := by
  constructor
  · intro g n b hn
    exact ⟨successors_eq_nil hn, has_edge_eq_false hn b⟩
  · intro c n b hn
    have hs : c.successors n = [] := by
      unfold CompiledGraph.successors
      rw [if_neg (Nat.not_le.mpr hn)]
    refine ⟨hs, ?_⟩
    unfold CompiledGraph.has_edge
    rw [hs]
    rfl

theorem claim_C7_witness :
    (9 ∉ gEx.nodes ∧ (gEx.successors 9 = [] ∧ gEx.has_edge 9 1 = false)) ∧
    ((gEx.compile).max_node_id < 7 ∧
      ((gEx.compile).successors 7 = [] ∧ (gEx.compile).has_edge 7 1 = false)) :=
  ⟨⟨by decide, claim_C7.1 gEx 9 1 (by decide)⟩,
   ⟨by decide, claim_C7.2 gEx.compile 7 1 (by decide)⟩⟩

/-- C6: for every mutable graph, the compiled `successors(n)` is sorted
ascending without duplicates and holds exactly the members of the mutable
successor set at compile time; consequently compiled `has_edge` agrees with
mutable `has_edge` everywhere. -/
theorem claim_C6 (g : DirectedGraph) (hw : g.Wf) :
    (∀ n : Nat, ((g.compile).successors n).Sorted (· ≤ ·) ∧
        ((g.compile).successors n).Nodup ∧
        (∀ m : Nat, m ∈ (g.compile).successors n ↔ m ∈ g.successors n)) ∧
    (∀ a b : Nat, (g.compile).has_edge a b = g.has_edge a b) := by
  constructor
  · intro n
    by_cases h : n ≤ g.maxNodeId
    · rw [compile_successors g n h]
      exact ⟨sortedSucc_sorted g n, sortedSucc_nodup hw n, fun m => mem_sortedSucc⟩
    · rw [compile_successors_gt g n (Nat.not_le.mp h)]
      refine ⟨List.sorted_nil, List.nodup_nil, fun m => ?_⟩
      rw [successors_eq_nil (not_mem_nodes_of_lt (Nat.not_le.mp h))]
  · exact compile_has_edge g

theorem claim_C6_witness :
    gEx.Wf ∧
    (((gEx.compile).successors 0).Sorted (· ≤ ·) ∧
      ((gEx.compile).successors 0).Nodup ∧
      (∀ m : Nat, m ∈ (gEx.compile).successors 0 ↔ m ∈ gEx.successors 0)) ∧
    ((gEx.compile).has_edge 1 2 = gEx.has_edge 1 2) :=
  ⟨by decide, (claim_C6 gEx (by decide)).1 0, (claim_C6 gEx (by decide)).2 1 2⟩

theorem gEx2_nodes_iff : ∀ n : Nat, n ∈ gEx2.nodes ↔ n ∈ gEx.nodes := by
  intro n
  show n ∈ ([3, 0, 1, 2] : List Nat) ↔ n ∈ ([0, 1, 2, 3] : List Nat)
  simp
  tauto

theorem gEx2_has_edge_eq : ∀ a b : Nat, gEx2.has_edge a b = gEx.has_edge a b := by
  intro a b
  by_cases h0 : a = 0
  · subst h0; rfl
  by_cases h1 : a = 1
  · subst h1; rfl
  by_cases h2 : a = 2
  · subst h2; rfl
  by_cases h3 : a = 3
  · subst h3; rfl
  rw [has_edge_eq_false (g := gEx2), has_edge_eq_false (g := gEx)]
  · show a ∉ ([0, 1, 2, 3] : List Nat)
    simp
    omega
  · show a ∉ ([3, 0, 1, 2] : List Nat)
    simp
    omega

/-- C5: compilation is insertion-order independent: any two mutable graphs
with the same node set and the same edge set compile to element-wise equal
`offsets` and `destinations` arrays. -/
theorem claim_C5 (g₁ g₂ : DirectedGraph) (h₁ : g₁.Wf) (h₂ : g₂.Wf)
    (hnodes : ∀ n : Nat, n ∈ g₁.nodes ↔ n ∈ g₂.nodes)
    (hedges : ∀ a b : Nat, g₁.has_edge a b = g₂.has_edge a b) :
    (g₁.compile).offsets = (g₂.compile).offsets ∧
      (g₁.compile).destinations = (g₂.compile).destinations := by
  have hmax := maxNodeId_congr hnodes
  have hss : g₁.sortedSucc = g₂.sortedSucc := funext (sortedSucc_congr h₁ h₂ hedges)
  constructor
  · rw [compile_offsets, compile_offsets, hmax, hss]
  · rw [compile_destinations, compile_destinations, hmax, hss]

/-! ## DFS: equivalence of the implementation with the specified algorithm -/

theorem dropWhile_cons_not (p : Nat → Bool) :
    ∀ (s : List Nat) {m : Nat} {r : List Nat}, s.dropWhile p = m :: r → p m = false := by
  intro s
  induction s with
  | nil => intro m r h; exact absurd h (by simp)
  | cons a t ih =>
    intro m r h
    by_cases hp : p a
    · rw [List.dropWhile_cons_of_pos hp] at h
      exact ih h
    · rw [List.dropWhile_cons_of_neg hp] at h
      cases h
      exact Bool.not_eq_true _ ▸ (by simpa using hp)

theorem filter_not_dropWhile (p : Nat → Bool) (s : List Nat) :
    s.filter (fun x => !p x) = (s.dropWhile p).filter (fun x => !p x) := by
  induction s with
  | nil => rfl
  | cons a t ih =>
    by_cases hp : p a
    · rw [List.dropWhile_cons_of_pos hp, List.filter_cons_of_neg (by simp [hp])]
      exact ih
    · rw [List.dropWhile_cons_of_neg hp]

/-- The push-time visited filter of the implementation does not change the
emitted sequence: runs whose stacks agree after discarding already-visited
entries emit the same sequence with the same fuel. -/
theorem dfs_bisim (succ : NodeID → List NodeID) :
    ∀ (fuel : Nat) (s₁ s₂ visited : List Nat),
      s₁.filter (fun x => !(visited.contains x)) =
        s₂.filter (fun x => !(visited.contains x)) →
      dfsSpecAux succ fuel s₁ visited = dfsAux succ fuel s₂ visited := by
  intro fuel
  induction fuel with
  | zero => intro s₁ s₂ visited _; rfl
  | succ fuel ih =>
    intro s₁ s₂ visited h
    have hf1 := filter_not_dropWhile (fun x => visited.contains x) s₁
    have hf2 := filter_not_dropWhile (fun x => visited.contains x) s₂
    rcases hd1 : s₁.dropWhile (fun n => visited.contains n) with _ | ⟨n, r₁⟩
    · have h2 : s₂.dropWhile (fun n => visited.contains n) = [] := by
        rcases hd2 : s₂.dropWhile (fun n => visited.contains n) with _ | ⟨m, r₂⟩
        · rfl
        · exfalso
          have hm : visited.contains m = false := dropWhile_cons_not _ s₂ hd2
          have he : s₁.filter (fun x => !(visited.contains x)) =
              m :: r₂.filter (fun x => !(visited.contains x)) := by
            rw [h, hf2, hd2]
            exact List.filter_cons_of_pos (show (!(visited.contains m)) = true by rw [hm]; rfl)
          rw [hf1, hd1] at he
          exact absurd he (by simp)
      simp only [dfsSpecAux, dfsAux, hd1, h2]
    · have hn : visited.contains n = false := dropWhile_cons_not _ s₁ hd1
      rcases hd2 : s₂.dropWhile (fun n => visited.contains n) with _ | ⟨m, r₂⟩
      · exfalso
        have he : s₂.filter (fun x => !(visited.contains x)) =
            n :: r₁.filter (fun x => !(visited.contains x)) := by
          rw [← h, hf1, hd1]
          exact List.filter_cons_of_pos (show (!(visited.contains n)) = true by rw [hn]; rfl)
        rw [hf2, hd2] at he
        exact absurd he (by simp)
      · have hm : visited.contains m = false := dropWhile_cons_not _ s₂ hd2
        have e1 : s₁.filter (fun x => !(visited.contains x)) =
            n :: r₁.filter (fun x => !(visited.contains x)) := by
          rw [hf1, hd1]
          exact List.filter_cons_of_pos (show (!(visited.contains n)) = true by rw [hn]; rfl)
        have e2 : s₂.filter (fun x => !(visited.contains x)) =
            m :: r₂.filter (fun x => !(visited.contains x)) := by
          rw [hf2, hd2]
          exact List.filter_cons_of_pos (show (!(visited.contains m)) = true by rw [hm]; rfl)
        have hcons : n :: r₁.filter (fun x => !(visited.contains x)) =
            m :: r₂.filter (fun x => !(visited.contains x)) := by
          rw [← e1, ← e2, h]
        have hnm : n = m := by injection hcons
        have htail : r₁.filter (fun x => !(visited.contains x)) =
            r₂.filter (fun x => !(visited.contains x)) := by injection hcons
        subst hnm
        simp only [dfsSpecAux, dfsAux, hd1, hd2]
        congr 1
        apply ih
        have hq' : ∀ t : List Nat,
            t.filter (fun x => !((n :: visited).contains x)) =
              (t.filter (fun x => !(visited.contains x))).filter (fun x => !(x == n)) := by
          intro t
          rw [List.filter_filter]
          apply List.filter_congr
          intro x _
          simp [List.contains_cons, Bool.not_or]
          tauto
        have hid : ((succ n).filter (fun s => !((n :: visited).contains s))).filter
            (fun x => !((n :: visited).contains x)) =
              (succ n).filter (fun x => !((n :: visited).contains x)) := by
          rw [List.filter_filter]
          apply List.filter_congr
          intro x _
          cases hx : ((fun x => !((n :: visited).contains x)) x) <;> simp_all
        rw [List.filter_append, List.filter_append, List.filter_reverse, List.filter_reverse,
          hid]
        congr 1
        rw [hq' r₁, hq' r₂, htail]

/-- C4: the sequence emitted by the DFS view equals the sequence of the
specification's reference stack algorithm (all successors pushed in successor
view order regardless of visited status, duplicate detection at pop time),
over both representations. -/
theorem claim_C4 :
    (∀ (g : DirectedGraph) (start : Nat), g.dfsList start = g.dfsSpecList start) ∧
    (∀ (c : CompiledGraph) (start : Nat), c.dfsList start = c.dfsSpecList start) := by
  constructor
  · intro g start
    exact (dfs_bisim g.succFn (g.node_count + 2) [start] [start] [] rfl).symm
  · intro c start
    exact (dfs_bisim c.succFn (c.node_count + 2) [start] [start] [] rfl).symm

/-! ## DFS: correctness of the emitted sequence -/

/-- Correctness of the DFS loop: with fuel exceeding the number of unvisited
ids of a successor-closed universe `U` containing the stack, the emitted
sequence is duplicate-free and disjoint from `visited`, covers the stack,
is successor-closed up to `visited`, and consists of nodes reachable from the
stack. -/
theorem dfsAux_main (succ : NodeID → List NodeID) (U : Finset Nat)
    (hU : ∀ n ∈ U, ∀ m ∈ succ n, m ∈ U) :
    ∀ (fuel : Nat) (stack visited : List Nat),
      (∀ x ∈ stack, x ∈ U) →
      (U.filter (fun x => x ∉ visited)).card + 1 ≤ fuel →
      ((dfsAux succ fuel stack visited).Nodup ∧
        (∀ m ∈ dfsAux succ fuel stack visited, m ∉ visited ∧ m ∈ U)) ∧
      (∀ x ∈ stack, x ∈ dfsAux succ fuel stack visited ∨ x ∈ visited) ∧
      (∀ m ∈ dfsAux succ fuel stack visited, ∀ s ∈ succ m,
        s ∈ dfsAux succ fuel stack visited ∨ s ∈ visited) ∧
      (∀ m ∈ dfsAux succ fuel stack visited, ∃ x ∈ stack, ReachesF succ x m) := by
  intro fuel
  induction fuel with
  | zero =>
    intro stack visited _ hfuel
    exact absurd hfuel (by omega)
  | succ fuel ih =>
    intro stack visited hstack hfuel
    rcases hd : stack.dropWhile (fun n => visited.contains n) with _ | ⟨n, rest⟩
    · have hout : dfsAux succ (fuel + 1) stack visited = [] := by
        simp only [dfsAux, hd]
      rw [hout]
      have hvis : ∀ x ∈ stack, x ∈ visited := by
        intro x hx
        have := List.dropWhile_eq_nil_iff.mp hd x hx
        simpa using this
      exact ⟨⟨List.nodup_nil, by simp⟩, fun x hx => Or.inr (hvis x hx), by simp, by simp⟩
    · have hnv : n ∉ visited := by
        have := dropWhile_cons_not _ stack hd
        simpa using this
      have hsub : (stack.dropWhile (fun x => visited.contains x)).Sublist stack :=
        List.dropWhile_sublist _
      rw [hd] at hsub
      have hnstack : n ∈ stack := hsub.subset (List.mem_cons_self _ _)
      have hrest : ∀ x ∈ rest, x ∈ stack := fun x hx =>
        hsub.subset (List.mem_cons_of_mem _ hx)
      have hnU : n ∈ U := hstack n hnstack
      have hout : dfsAux succ (fuel + 1) stack visited =
          n :: dfsAux succ fuel
            (((succ n).filter (fun s => !((n :: visited).contains s))).reverse ++ rest)
            (n :: visited) := by
        simp only [dfsAux, hd]
      have hstack' : ∀ x ∈ ((succ n).filter
          (fun s => !((n :: visited).contains s))).reverse ++ rest, x ∈ U := by
        intro x hx
        rcases List.mem_append.mp hx with hx | hx
        · exact hU n hnU x (List.mem_of_mem_filter (List.mem_reverse.mp hx))
        · exact hstack x (hrest x hx)
      have hmemfil : n ∈ U.filter (fun x => x ∉ visited) := by
        rw [Finset.mem_filter]
        exact ⟨hnU, hnv⟩
      have hfilter_eq : U.filter (fun x => x ∉ (n :: visited)) =
          (U.filter (fun x => x ∉ visited)).erase n := by
        ext x
        simp only [Finset.mem_filter, Finset.mem_erase, List.mem_cons]
        tauto
      have hfuel' : (U.filter (fun x => x ∉ (n :: visited))).card + 1 ≤ fuel := by
        rw [hfilter_eq, Finset.card_erase_of_mem hmemfil]
        have hpos : 0 < (U.filter (fun x => x ∉ visited)).card :=
          Finset.card_pos.mpr ⟨n, hmemfil⟩
        omega
      obtain ⟨⟨hnodup', hmem'⟩, hstk', hclo', hreach'⟩ :=
        ih (((succ n).filter (fun s => !((n :: visited).contains s))).reverse ++ rest)
          (n :: visited) hstack' hfuel'
      rw [hout]
      refine ⟨⟨?_, ?_⟩, ?_, ?_, ?_⟩
      · refine List.nodup_cons.mpr ⟨?_, hnodup'⟩
        intro hmem
        exact (hmem' n hmem).1 (List.mem_cons_self _ _)
      · intro m hm
        rcases List.mem_cons.mp hm with rfl | hm
        · exact ⟨hnv, hnU⟩
        · obtain ⟨h1, h2⟩ := hmem' m hm
          exact ⟨fun hc => h1 (List.mem_cons_of_mem _ hc), h2⟩
      · intro x hx
        have hdecomp := List.takeWhile_append_dropWhile (fun x => visited.contains x) stack
        rw [hd] at hdecomp
        rw [← hdecomp] at hx
        rcases List.mem_append.mp hx with hx | hx
        · have := List.mem_takeWhile_imp hx
          exact Or.inr (by simpa using this)
        · rcases List.mem_cons.mp hx with rfl | hx
          · exact Or.inl (List.mem_cons_self _ _)
          · have hx' : x ∈ ((succ n).filter
                (fun s => !((n :: visited).contains s))).reverse ++ rest :=
              List.mem_append.mpr (Or.inr hx)
            rcases hstk' x hx' with h | h
            · exact Or.inl (List.mem_cons_of_mem _ h)
            · rcases List.mem_cons.mp h with rfl | h
              · exact Or.inl (List.mem_cons_self _ _)
              · exact Or.inr h
      · intro m hm s hs
        rcases List.mem_cons.mp hm with rfl | hm
        · by_cases hsv : s ∈ m :: visited
          · rcases List.mem_cons.mp hsv with rfl | hsv
            · exact Or.inl (List.mem_cons_self _ _)
            · exact Or.inr hsv
          · have hsp : s ∈ ((succ m).filter
                (fun s => !((m :: visited).contains s))).reverse ++ rest := by
              apply List.mem_append.mpr
              left
              rw [List.mem_reverse]
              apply List.mem_filter.mpr
              exact ⟨hs, by simpa using hsv⟩
            rcases hstk' s hsp with h | h
            · exact Or.inl (List.mem_cons_of_mem _ h)
            · rcases List.mem_cons.mp h with rfl | h
              · exact Or.inl (List.mem_cons_self _ _)
              · exact Or.inr h
        · rcases hclo' m hm s hs with h | h
          · exact Or.inl (List.mem_cons_of_mem _ h)
          · rcases List.mem_cons.mp h with rfl | h
            · exact Or.inl (List.mem_cons_self _ _)
            · exact Or.inr h
      · intro m hm
        rcases List.mem_cons.mp hm with rfl | hm
        · exact ⟨m, hnstack, Relation.ReflTransGen.refl⟩
        · obtain ⟨x, hx, hxr⟩ := hreach' m hm
          rcases List.mem_append.mp hx with hx | hx
          · have hxs : x ∈ succ n := List.mem_of_mem_filter (List.mem_reverse.mp hx)
            exact ⟨n, hnstack, Relation.ReflTransGen.head hxs hxr⟩
          · exact ⟨x, hrest x hx, hxr⟩

/-- First step of the DFS loop from a singleton stack. -/
theorem dfsAux_head (succ : NodeID → List NodeID) (start : Nat) (k : Nat) :
    dfsAux succ (k + 1) [start] [] =
      start :: dfsAux succ k
        (((succ start).filter (fun s => !((start :: ([] : List Nat)).contains s))).reverse ++ [])
        [start] := rfl

/-- Top-level DFS correctness over an abstract successor-closed universe. -/
theorem dfsAux_top (succ : NodeID → List NodeID) (U : Finset Nat)
    (hU : ∀ n ∈ U, ∀ m ∈ succ n, m ∈ U) (start : Nat) (hs : start ∈ U)
    (fuel : Nat) (hfuel : U.card + 1 ≤ fuel) :
    (dfsAux succ fuel [start] []).Nodup ∧
    (∀ m : Nat, m ∈ dfsAux succ fuel [start] [] ↔ ReachesF succ start m) ∧
    (dfsAux succ fuel [start] []).head? = some start := by
  have hfuel0 : (U.filter (fun x => x ∉ ([] : List Nat))).card + 1 ≤ fuel := by
    have he : U.filter (fun x => x ∉ ([] : List Nat)) = U := by
      apply Finset.filter_true_of_mem
      intro x _
      simp
    rw [he]
    exact hfuel
  have hstack0 : ∀ x ∈ ([start] : List Nat), x ∈ U := by
    intro x hx
    rcases List.mem_singleton.mp hx with rfl
    exact hs
  obtain ⟨⟨hnodup, hmem⟩, hstk, hclo, hreach⟩ :=
    dfsAux_main succ U hU fuel [start] [] hstack0 hfuel0
  have hstart : start ∈ dfsAux succ fuel [start] [] := by
    rcases hstk start (List.mem_singleton.mpr rfl) with h | h
    · exact h
    · exact absurd h (by simp)
  refine ⟨hnodup, ?_, ?_⟩
  · intro m
    constructor
    · intro hm
      obtain ⟨x, hx, hxr⟩ := hreach m hm
      rcases List.mem_singleton.mp hx with rfl
      exact hxr
    · intro hr
      have hr' : Relation.ReflTransGen (Step succ) start m := hr
      clear hr
      induction hr' with
      | refl => exact hstart
      | tail hab hbc ih =>
        rcases hclo _ ih _ hbc with h | h
        · exact h
        · exact absurd h (by simp)
  · obtain ⟨k, rfl⟩ : ∃ k, fuel = k + 1 := ⟨fuel - 1, by omega⟩
    rw [dfsAux_head]
    rfl

/-- Closure of the mutable graph's node set under the successor view. -/
theorem nodes_toFinset_closed (g : DirectedGraph) (hw : g.Wf) :
    ∀ n ∈ g.nodes.toFinset, ∀ m ∈ g.succFn n, m ∈ g.nodes.toFinset := by
  intro n _ m hm
  rw [List.mem_toFinset]
  exact succ_closed hw hm

theorem nodes_length (g : DirectedGraph) : g.nodes.length = g.node_count :=
  List.length_map _ _

/-- Every destination of a compiled successor slice is a compiled node. -/
theorem mem_compile_nodes_of_mem_successors (g : DirectedGraph) (hw : g.Wf) {n m : Nat}
    (hm : m ∈ (g.compile).successors n) : m ∈ (g.compile).nodes := by
  have hn : n ≤ g.maxNodeId := by
    by_contra hc
    rw [compile_successors_gt g n (Nat.not_le.mp hc)] at hm
    exact absurd hm (by simp)
  have hmg : m ∈ g.successors n := (compile_successors_mem g n m).mp hm
  have hmax : m ≤ g.maxNodeId := le_maxNodeId (succ_closed hw hmg)
  have hdest : m ∈ (g.compile).destinations := by
    rw [compile_destinations, List.mem_flatMap]
    refine ⟨n, ?_, mem_sortedSucc.mpr hmg⟩
    rw [List.mem_range]
    omega
  show m ∈ (g.compile).nodes
  unfold CompiledGraph.nodes
  rw [List.mem_filter]
  constructor
  · rw [List.mem_range, compile_max]
    omega
  · simp only [Bool.or_eq_true]
    right
    simpa using hdest

/-- Closure of the compiled graph's node set under its successor view. -/
theorem compile_nodes_closed (g : DirectedGraph) (hw : g.Wf) :
    ∀ n ∈ (g.compile).nodes.toFinset, ∀ m ∈ (g.compile).succFn n,
      m ∈ (g.compile).nodes.toFinset := by
  intro n _ m hm
  rw [List.mem_toFinset]
  exact mem_compile_nodes_of_mem_successors g hw hm

/-! ## BFS: correctness of the emitted sequence -/

/-- The enqueue loop of the BFS iterator: with a duplicate-free successor
list, it appends the not-yet-visited successors to the queue (in successor
order) and marks exactly those visited. -/
theorem bfsFold_eq : ∀ (l : List Nat) (visited queue : List Nat), l.Nodup →
    l.foldl (fun (p : List NodeID × List NodeID) s =>
        if p.1.contains s then p else (s :: p.1, p.2 ++ [s])) (visited, queue) =
      ((l.filter (fun s => !(visited.contains s))).reverse ++ visited,
       queue ++ l.filter (fun s => !(visited.contains s))) := by
  intro l
  induction l with
  | nil => intro visited queue _; simp
  | cons a t ih =>
    intro visited queue hnd
    rw [List.foldl_cons]
    by_cases ha : a ∈ visited
    · have hac : (visited, queue).1.contains a = true := by
        simp only [List.contains_eq_any_beq, List.any_eq_true, beq_iff_eq]
        exact ⟨a, ha, rfl⟩
      rw [if_pos hac, ih visited queue (List.Nodup.of_cons hnd)]
      have hf : (a :: t).filter (fun s => !(visited.contains s)) =
          t.filter (fun s => !(visited.contains s)) :=
        List.filter_cons_of_neg (by simp [ha])
      rw [hf]
    · have hac : (visited, queue).1.contains a = false := by
        simp only [List.contains_eq_any_beq, List.any_eq_false, beq_iff_eq]
        intro x hx hxa
        exact ha (hxa ▸ hx)
      rw [if_neg (by rw [hac]; exact Bool.false_ne_true),
        ih (a :: visited) (queue ++ [a]) (List.Nodup.of_cons hnd)]
      have hfa : (a :: t).filter (fun s => !(visited.contains s)) =
          a :: t.filter (fun s => !(visited.contains s)) :=
        List.filter_cons_of_pos (by simp [ha])
      have hft : t.filter (fun s => !((a :: visited).contains s)) =
          t.filter (fun s => !(visited.contains s)) := by
        apply List.filter_congr
        intro x hx
        have hxa : x ≠ a := fun h => (List.nodup_cons.mp hnd).1 (h ▸ hx)
        simp [List.contains_cons, hxa]
      rw [hft, hfa]
      simp [Prod.ext_iff, List.reverse_cons, List.append_assoc]

/-- One dequeue step of the BFS loop. -/
theorem bfsAux_cons (succ : NodeID → List NodeID) (fuel : Nat) (n : Nat)
    (rest visited : List Nat) (hnd : (succ n).Nodup) :
    bfsAux succ (fuel + 1) (n :: rest) visited =
      n :: bfsAux succ fuel (rest ++ (succ n).filter (fun s => !(visited.contains s)))
        (((succ n).filter (fun s => !(visited.contains s))).reverse ++ visited) := by
  have hfold := bfsFold_eq (succ n) visited rest hnd
  show n :: bfsAux succ fuel
      ((succ n).foldl (fun (p : List NodeID × List NodeID) s =>
        if p.1.contains s then p else (s :: p.1, p.2 ++ [s])) (visited, rest)).2
      ((succ n).foldl (fun (p : List NodeID × List NodeID) s =>
        if p.1.contains s then p else (s :: p.1, p.2 ++ [s])) (visited, rest)).1 = _
  rw [hfold]

/-- Correctness of the BFS loop: with fuel exceeding the queue length plus the
number of unvisited ids of a successor-closed universe containing the visited
set, the emitted sequence is duplicate-free, contains every queued node,
contains only queued or fresh nodes, is successor-closed up to `visited`, and
consists of nodes reachable from the queue. -/
theorem bfsAux_main (succ : NodeID → List NodeID) (U : Finset Nat)
    (hU : ∀ n ∈ U, ∀ m ∈ succ n, m ∈ U)
    (hnd : ∀ n ∈ U, (succ n).Nodup) :
    ∀ (fuel : Nat) (queue visited : List Nat),
      queue.Nodup →
      (∀ x ∈ queue, x ∈ visited) →
      (∀ x ∈ visited, x ∈ U) →
      (∀ x ∈ visited, x ∉ queue → ∀ s ∈ succ x, s ∈ visited) →
      queue.length + (U.filter (fun x => x ∉ visited)).card + 1 ≤ fuel →
      ((bfsAux succ fuel queue visited).Nodup ∧
        (∀ x ∈ queue, x ∈ bfsAux succ fuel queue visited)) ∧
      (∀ m ∈ bfsAux succ fuel queue visited, m ∈ queue ∨ m ∉ visited) ∧
      (∀ m ∈ bfsAux succ fuel queue visited, ∀ s ∈ succ m,
        s ∈ bfsAux succ fuel queue visited ∨ s ∈ visited) ∧
      (∀ m ∈ bfsAux succ fuel queue visited, ∃ x ∈ queue, ReachesF succ x m) := by
  intro fuel
  induction fuel with
  | zero =>
    intro queue visited _ _ _ _ hfuel
    exact absurd hfuel (by omega)
  | succ fuel ih =>
    intro queue visited hqnd hq hv hp hfuel
    rcases queue with _ | ⟨n, rest⟩
    · have hout : bfsAux succ (fuel + 1) [] visited = [] := rfl
      rw [hout]
      exact ⟨⟨List.nodup_nil, by simp⟩, by simp, by simp, by simp⟩
    · have hnvis : n ∈ visited := hq n (List.mem_cons_self _ _)
      have hnU : n ∈ U := hv n hnvis
      have hout := bfsAux_cons succ fuel n rest visited (hnd n hnU)
      have hnews_mem : ∀ x ∈ (succ n).filter (fun s => !(visited.contains s)),
          x ∈ succ n ∧ x ∉ visited := by
        intro x hx
        obtain ⟨h1, h2⟩ := List.mem_filter.mp hx
        exact ⟨h1, by simpa using h2⟩
      have hnews_nodup : ((succ n).filter (fun s => !(visited.contains s))).Nodup :=
        (hnd n hnU).filter _
      have hrest_nodup : rest.Nodup := List.Nodup.of_cons hqnd
      have hn_rest : n ∉ rest := (List.nodup_cons.mp hqnd).1
      -- invariants for the recursive call
      have hq' : ∀ x ∈ rest ++ (succ n).filter (fun s => !(visited.contains s)),
          x ∈ ((succ n).filter (fun s => !(visited.contains s))).reverse ++ visited := by
        intro x hx
        rcases List.mem_append.mp hx with hx | hx
        · exact List.mem_append.mpr (Or.inr (hq x (List.mem_cons_of_mem _ hx)))
        · exact List.mem_append.mpr (Or.inl (List.mem_reverse.mpr hx))
      have hqnd' : (rest ++ (succ n).filter (fun s => !(visited.contains s))).Nodup := by
        rw [List.nodup_append]
        refine ⟨hrest_nodup, hnews_nodup, ?_⟩
        intro x hx hx'
        exact (hnews_mem x hx').2 (hq x (List.mem_cons_of_mem _ hx))
      have hv' : ∀ x ∈ ((succ n).filter (fun s => !(visited.contains s))).reverse ++ visited,
          x ∈ U := by
        intro x hx
        rcases List.mem_append.mp hx with hx | hx
        · exact hU n hnU x (hnews_mem x (List.mem_reverse.mp hx)).1
        · exact hv x hx
      have hp' : ∀ x ∈ ((succ n).filter (fun s => !(visited.contains s))).reverse ++ visited,
          x ∉ rest ++ (succ n).filter (fun s => !(visited.contains s)) →
          ∀ s ∈ succ x, s ∈ ((succ n).filter
            (fun s => !(visited.contains s))).reverse ++ visited := by
        intro x hx hxq s hs
        rcases List.mem_append.mp hx with hx | hx
        · exact absurd (List.mem_append.mpr (Or.inr (List.mem_reverse.mp hx))) hxq
        · by_cases hxn : x = n
          · subst hxn
            by_cases hsv : s ∈ visited
            · exact List.mem_append.mpr (Or.inr hsv)
            · refine List.mem_append.mpr (Or.inl (List.mem_reverse.mpr ?_))
              exact List.mem_filter.mpr ⟨hs, by simpa using hsv⟩
          · have hxrest : x ∉ rest := fun hc =>
              hxq (List.mem_append.mpr (Or.inl hc))
            have hxqueue : x ∉ n :: rest := by
              intro hc
              rcases List.mem_cons.mp hc with hc | hc
              · exact hxn hc
              · exact hxrest hc
            exact List.mem_append.mpr (Or.inr (hp x hx hxqueue s hs))
      have hfuel' : (rest ++ (succ n).filter (fun s => !(visited.contains s))).length +
          (U.filter (fun x => x ∉ ((succ n).filter
            (fun s => !(visited.contains s))).reverse ++ visited)).card + 1 ≤ fuel := by
        have hsetminus : U.filter (fun x => x ∉ ((succ n).filter
            (fun s => !(visited.contains s))).reverse ++ visited) =
              (U.filter (fun x => x ∉ visited)) \
                ((succ n).filter (fun s => !(visited.contains s))).toFinset := by
          ext x
          simp only [Finset.mem_filter, Finset.mem_sdiff, List.mem_append,
            List.mem_reverse, List.mem_toFinset]
          tauto
        have hsubnews : ((succ n).filter (fun s => !(visited.contains s))).toFinset ⊆
            U.filter (fun x => x ∉ visited) := by
          intro x hx
          rw [List.mem_toFinset] at hx
          obtain ⟨h1, h2⟩ := hnews_mem x hx
          rw [Finset.mem_filter]
          exact ⟨hU n hnU x h1, h2⟩
        have hcard1 := Finset.card_sdiff hsubnews
        have hcard2 : ((succ n).filter (fun s => !(visited.contains s))).toFinset.card =
            ((succ n).filter (fun s => !(visited.contains s))).length :=
          List.toFinset_card_of_nodup hnews_nodup
        have hcard3 := Finset.card_le_card hsubnews
        rw [hsetminus, List.length_append, hcard1, hcard2]
        simp only [List.length_cons] at hfuel
        omega
      obtain ⟨⟨hnodup', hcov'⟩, hfresh', hclo', hreach'⟩ :=
        ih (rest ++ (succ n).filter (fun s => !(visited.contains s)))
          (((succ n).filter (fun s => !(visited.contains s))).reverse ++ visited)
          hqnd' hq' hv' hp' hfuel'
      rw [hout]
      have hn_not_out' : n ∉ bfsAux succ fuel
          (rest ++ (succ n).filter (fun s => !(visited.contains s)))
          (((succ n).filter (fun s => !(visited.contains s))).reverse ++ visited) := by
        intro hc
        rcases hfresh' n hc with h | h
        · rcases List.mem_append.mp h with h | h
          · exact hn_rest h
          · exact (hnews_mem n h).2 hnvis
        · exact h (List.mem_append.mpr (Or.inr hnvis))
      refine ⟨⟨?_, ?_⟩, ?_, ?_, ?_⟩
      · exact List.nodup_cons.mpr ⟨hn_not_out', hnodup'⟩
      · intro x hx
        rcases List.mem_cons.mp hx with rfl | hx
        · exact List.mem_cons_self _ _
        · exact List.mem_cons_of_mem _ (hcov' x (List.mem_append.mpr (Or.inl hx)))
      · intro m hm
        rcases List.mem_cons.mp hm with rfl | hm
        · exact Or.inl (List.mem_cons_self _ _)
        · rcases hfresh' m hm with h | h
          · rcases List.mem_append.mp h with h | h
            · exact Or.inl (List.mem_cons_of_mem _ h)
            · exact Or.inr (hnews_mem m h).2
          · exact Or.inr (fun hc => h (List.mem_append.mpr (Or.inr hc)))
      · intro m hm s hs
        rcases List.mem_cons.mp hm with rfl | hm
        · by_cases hsv : s ∈ visited
          · exact Or.inr hsv
          · have hsnews : s ∈ (succ m).filter (fun x => !(visited.contains x)) :=
              List.mem_filter.mpr ⟨hs, by simpa using hsv⟩
            exact Or.inl (List.mem_cons_of_mem _
              (hcov' s (List.mem_append.mpr (Or.inr hsnews))))
        · rcases hclo' m hm s hs with h | h
          · exact Or.inl (List.mem_cons_of_mem _ h)
          · rcases List.mem_append.mp h with h | h
            · exact Or.inl (List.mem_cons_of_mem _
                (hcov' s (List.mem_append.mpr (Or.inr (List.mem_reverse.mp h)))))
            · exact Or.inr h
      · intro m hm
        rcases List.mem_cons.mp hm with rfl | hm
        · exact ⟨m, List.mem_cons_self _ _, Relation.ReflTransGen.refl⟩
        · obtain ⟨x, hx, hxr⟩ := hreach' m hm
          rcases List.mem_append.mp hx with hx | hx
          · exact ⟨x, List.mem_cons_of_mem _ hx, hxr⟩
          · exact ⟨n, List.mem_cons_self _ _,
              Relation.ReflTransGen.head (hnews_mem x hx).1 hxr⟩

/-- Top-level BFS correctness over an abstract successor-closed universe. -/
theorem bfsAux_top (succ : NodeID → List NodeID) (U : Finset Nat)
    (hU : ∀ n ∈ U, ∀ m ∈ succ n, m ∈ U)
    (hnd : ∀ n ∈ U, (succ n).Nodup) (start : Nat) (hs : start ∈ U)
    (fuel : Nat) (hfuel : U.card + 2 ≤ fuel) :
    (bfsAux succ fuel [start] [start]).Nodup ∧
    (∀ m : Nat, m ∈ bfsAux succ fuel [start] [start] ↔ ReachesF succ start m) ∧
    (bfsAux succ fuel [start] [start]).head? = some start := by
  have hfuel0 : ([start] : List Nat).length +
      (U.filter (fun x => x ∉ ([start] : List Nat))).card + 1 ≤ fuel := by
    have he : U.filter (fun x => x ∉ ([start] : List Nat)) = U.erase start := by
      ext x
      simp only [Finset.mem_filter, Finset.mem_erase, List.mem_singleton]
      tauto
    rw [he, Finset.card_erase_of_mem hs]
    have : 0 < U.card := Finset.card_pos.mpr ⟨start, hs⟩
    simp only [List.length_singleton]
    omega
  obtain ⟨⟨hnodup, hcov⟩, _, hclo, hreach⟩ :=
    bfsAux_main succ U hU hnd fuel [start] [start]
      (List.nodup_singleton _) (by simp) (by simpa using hs)
      (by intro x hx hxq; exact absurd (List.mem_singleton.mp hx ▸
        List.mem_singleton.mpr rfl) hxq) hfuel0
  have hstart : start ∈ bfsAux succ fuel [start] [start] :=
    hcov start (List.mem_singleton.mpr rfl)
  refine ⟨hnodup, ?_, ?_⟩
  · intro m
    constructor
    · intro hm
      obtain ⟨x, hx, hxr⟩ := hreach m hm
      rcases List.mem_singleton.mp hx with rfl
      exact hxr
    · intro hr
      have hr' : Relation.ReflTransGen (Step succ) start m := hr
      clear hr
      induction hr' with
      | refl => exact hstart
      | tail hab hbc ih2 =>
        rcases hclo _ ih2 _ hbc with h | h
        · exact h
        · rcases List.mem_singleton.mp h with rfl
          exact hstart
  · obtain ⟨k, rfl⟩ : ∃ k, fuel = k + 1 := ⟨fuel - 1, by omega⟩
    rfl

/-! ## Topological view (Kahn's algorithm): loop characterisation -/

/-- The decrement-and-enqueue loop over one (duplicate-free) successor list:
every member's in-degree drops by one, and exactly the members whose
in-degree reaches zero are appended to the queue, in successor order. -/
theorem kahnFold_eq : ∀ (l : List Nat) (indeg : Nat → Int) (queue : List Nat), l.Nodup →
    l.foldl (fun (p : (NodeID → Int) × List NodeID) s =>
        ((fun m => if m = s then p.1 m - 1 else p.1 m),
         if p.1 s - 1 = 0 then p.2 ++ [s] else p.2)) (indeg, queue) =
      ((fun m => if m ∈ l then indeg m - 1 else indeg m),
       queue ++ l.filter (fun s => decide (indeg s - 1 = 0))) := by
  intro l
  induction l with
  | nil =>
    intro indeg queue _
    simp
  | cons a t ih =>
    intro indeg queue hnd
    have ha : a ∉ t := (List.nodup_cons.mp hnd).1
    have hstep : ((fun m => if m = a then (indeg, queue).1 m - 1 else (indeg, queue).1 m,
        if (indeg, queue).1 a - 1 = 0 then (indeg, queue).2 ++ [a] else (indeg, queue).2) :
        (NodeID → Int) × List NodeID) =
      ((fun m => if m = a then indeg m - 1 else indeg m),
       if indeg a - 1 = 0 then queue ++ [a] else queue) := rfl
    rw [List.foldl_cons, hstep, ih _ _ (List.Nodup.of_cons hnd)]
    rw [Prod.mk.injEq]
    constructor
    · funext m
      by_cases hma : m = a
      · subst hma
        simp [ha]
      · simp [hma, List.mem_cons]
    · have hcongr : t.filter (fun s => decide ((if s = a then indeg s - 1 else indeg s) - 1 = 0)) =
          t.filter (fun s => decide (indeg s - 1 = 0)) := by
        apply List.filter_congr
        intro x hx
        have hxa : x ≠ a := fun h => ha (h ▸ hx)
        simp [hxa]
      rw [hcongr]
      by_cases hz : indeg a - 1 = 0
      · rw [if_pos hz, List.filter_cons_of_pos (by simp [hz]), List.append_assoc]
        rfl
      · rw [if_neg hz, List.filter_cons_of_neg (by simp [hz])]

/-- One dequeue step of Kahn's loop. -/
theorem kahnAux_cons (succ : NodeID → List NodeID) (fuel : Nat) (n : Nat)
    (rest : List Nat) (indeg : Nat → Int) (hnd : (succ n).Nodup) :
    kahnAux succ (fuel + 1) (n :: rest) indeg =
      n :: kahnAux succ fuel
        (rest ++ (succ n).filter (fun s => decide (indeg s - 1 = 0)))
        (fun m => if m ∈ succ n then indeg m - 1 else indeg m) := by
  have hfold := kahnFold_eq (succ n) indeg rest hnd
  show n :: kahnAux succ fuel
      ((succ n).foldl (fun (p : (NodeID → Int) × List NodeID) s =>
        ((fun m => if m = s then p.1 m - 1 else p.1 m),
         if p.1 s - 1 = 0 then p.2 ++ [s] else p.2)) (indeg, rest)).2
      ((succ n).foldl (fun (p : (NodeID → Int) × List NodeID) s =>
        ((fun m => if m = s then p.1 m - 1 else p.1 m),
         if p.1 s - 1 = 0 then p.2 ++ [s] else p.2)) (indeg, rest)).1 = _
  rw [hfold]

/-- `in_degree[s]++` over a duplicate-free list bumps exactly its members. -/
theorem incrAll_eq : ∀ (l : List Nat) (d : Nat → Int), l.Nodup →
    incrAll l d = fun m => d m + (if m ∈ l then 1 else 0) := by
  intro l
  induction l with
  | nil =>
    intro d _
    funext m
    simp [incrAll]
  | cons a t ih =>
    intro d hnd
    have ha : a ∉ t := (List.nodup_cons.mp hnd).1
    show incrAll t (fun m => if m = a then d m + 1 else d m) = _
    rw [ih _ (List.Nodup.of_cons hnd)]
    funext m
    by_cases hma : m = a
    · subst hma
      simp [ha]
    · simp [hma, List.mem_cons]

theorem topoInDeg_foldl (succ : NodeID → List NodeID) :
    ∀ (ns : List Nat) (d : Nat → Int), (∀ n ∈ ns, (succ n).Nodup) →
    ns.foldl (fun d n => incrAll (succ n) d) d =
      fun m => d m + ((ns.filter (fun n => decide (m ∈ succ n))).length : Int) := by
  intro ns
  induction ns with
  | nil =>
    intro d _
    funext m
    simp
  | cons a t ih =>
    intro d hnd
    rw [List.foldl_cons, ih _ (fun n hn => hnd n (List.mem_cons_of_mem _ hn)),
      incrAll_eq _ _ (hnd a (List.mem_cons_self _ _))]
    funext m
    by_cases hma : m ∈ succ a
    · rw [List.filter_cons_of_pos (by simp [hma])]
      simp only [if_pos hma, List.length_cons]
      push_cast
      ring
    · rw [List.filter_cons_of_neg (by simp [hma])]
      simp [hma]

/-- The initial in-degree of `m` counts the nodes whose successor set holds
`m`. -/
theorem topoInDeg_count (nodes : List Nat) (succ : NodeID → List NodeID)
    (hnd : ∀ n ∈ nodes, (succ n).Nodup) (m : Nat) :
    topoInDeg nodes succ m = ((nodes.filter (fun n => decide (m ∈ succ n))).length : Int) := by
  show nodes.foldl (fun d n => incrAll (succ n) d) (fun _ => 0) m = _
  rw [topoInDeg_foldl succ nodes _ hnd]
  simp

theorem count_eq_preds_card (nodes : List Nat) (hnodes : nodes.Nodup)
    (succ : NodeID → List NodeID) (m : Nat) :
    (nodes.filter (fun n => decide (m ∈ succ n))).length =
      (predsIn nodes.toFinset succ m).card := by
  unfold predsIn
  rw [← List.toFinset_card_of_nodup (hnodes.filter _)]
  congr 1
  ext x
  simp [List.mem_toFinset, List.mem_filter, Finset.mem_filter]

/-- Correctness of Kahn's loop.  The ghost set `done` holds the nodes already
emitted; `indeg m` counts the not-yet-emitted in-`U` predecessors of `m`;
queued nodes are exactly-once, fully drained, and the output lists nodes whose
predecessors all precede them, while every node never emitted keeps an
unemitted predecessor. -/
theorem kahnAux_main (succ : NodeID → List NodeID) (U : Finset Nat)
    (hU : ∀ n ∈ U, ∀ m ∈ succ n, m ∈ U)
    (hnd : ∀ n ∈ U, (succ n).Nodup) :
    ∀ (fuel : Nat) (queue : List Nat) (indeg : Nat → Int) (done : Finset Nat),
      (∀ m ∈ U, indeg m = (((predsIn U succ m) \ done).card : Int)) →
      queue.Nodup →
      (∀ x ∈ queue, x ∈ U ∧ x ∉ done) →
      (∀ m : Nat, (m ∈ done ∨ m ∈ queue) → predsIn U succ m ⊆ done) →
      (∀ m ∈ U, m ∉ done → m ∉ queue → ∃ p ∈ U, p ∉ done ∧ m ∈ succ p) →
      queue.length + (U.filter (fun x => 0 < indeg x)).card + 1 ≤ fuel →
      ((kahnAux succ fuel queue indeg).Nodup ∧
        (∀ m ∈ kahnAux succ fuel queue indeg, m ∈ U ∧ m ∉ done)) ∧
      (∀ x ∈ queue, x ∈ kahnAux succ fuel queue indeg) ∧
      GoodOrder U succ done (kahnAux succ fuel queue indeg) ∧
      (∀ m ∈ U, m ∉ done → m ∉ kahnAux succ fuel queue indeg →
        ∃ p ∈ U, p ∉ done ∧ p ∉ kahnAux succ fuel queue indeg ∧ m ∈ succ p) := by
  intro fuel
  induction fuel with
  | zero =>
    intro queue indeg done _ _ _ _ _ hfuel
    exact absurd hfuel (by omega)
  | succ fuel ih =>
    intro queue indeg done h1 h2 h3 h6 h4 hfuel
    rcases queue with _ | ⟨n, rest⟩
    · have hout : kahnAux succ (fuel + 1) [] indeg = [] := rfl
      rw [hout]
      refine ⟨⟨List.nodup_nil, by simp⟩, by simp, trivial, ?_⟩
      intro m hm hmdone _
      obtain ⟨p, hp1, hp2, hp3⟩ := h4 m hm hmdone (by simp)
      exact ⟨p, hp1, hp2, by simp, hp3⟩
    · obtain ⟨hnU, hndone⟩ := h3 n (List.mem_cons_self _ _)
      have hnrest : n ∉ rest := (List.nodup_cons.mp h2).1
      have hpredn : predsIn U succ n ⊆ done := h6 n (Or.inr (List.mem_cons_self _ _))
      have hout := kahnAux_cons succ fuel n rest indeg (hnd n hnU)
      have hnews : ∀ s ∈ (succ n).filter (fun s => decide (indeg s - 1 = 0)),
          s ∈ succ n ∧ indeg s = 1 := by
        intro s hs
        obtain ⟨hs1, hs2⟩ := List.mem_filter.mp hs
        have h0 : indeg s - 1 = 0 := of_decide_eq_true hs2
        exact ⟨hs1, by omega⟩
      have hnews_sing : ∀ s ∈ (succ n).filter (fun s => decide (indeg s - 1 = 0)),
          predsIn U succ s \ done = {n} := by
        intro s hs
        obtain ⟨hs1, hs2⟩ := hnews s hs
        have hsU : s ∈ U := hU n hnU s hs1
        have hcard : (predsIn U succ s \ done).card = 1 := by
          have hc := h1 s hsU
          rw [hs2] at hc
          omega
        obtain ⟨a, ha⟩ := Finset.card_eq_one.mp hcard
        have hnmem : n ∈ predsIn U succ s \ done := by
          rw [Finset.mem_sdiff]
          exact ⟨Finset.mem_filter.mpr ⟨hnU, hs1⟩, hndone⟩
        rw [ha] at hnmem ⊢
        rw [Finset.mem_singleton] at hnmem
        rw [hnmem]
      have hnews_fresh : ∀ s ∈ (succ n).filter (fun s => decide (indeg s - 1 = 0)),
          s ∉ done ∧ s ∉ n :: rest := by
        intro s hs
        have hsing := hnews_sing s hs
        constructor
        · intro hc
          have hsub := h6 s (Or.inl hc)
          have h0 : predsIn U succ s \ done = ∅ :=
            Finset.sdiff_eq_empty_iff_subset.mpr hsub
          rw [h0] at hsing
          exact absurd hsing.symm (Finset.singleton_ne_empty n)
        · intro hc
          have hsub := h6 s (Or.inr hc)
          have h0 : predsIn U succ s \ done = ∅ :=
            Finset.sdiff_eq_empty_iff_subset.mpr hsub
          rw [h0] at hsing
          exact absurd hsing.symm (Finset.singleton_ne_empty n)
      -- the invariants for the recursive call, with done' = insert n done
      have h1' : ∀ m ∈ U, (fun m => if m ∈ succ n then indeg m - 1 else indeg m) m =
          (((predsIn U succ m) \ insert n done).card : Int) := by
        intro m hm
        have hsd : predsIn U succ m \ insert n done = (predsIn U succ m \ done).erase n := by
          ext x
          simp only [Finset.mem_sdiff, Finset.mem_erase, Finset.mem_insert]
          tauto
        by_cases hms : m ∈ succ n
        · have hnin : n ∈ predsIn U succ m \ done :=
            Finset.mem_sdiff.mpr ⟨Finset.mem_filter.mpr ⟨hnU, hms⟩, hndone⟩
          have hpos : 0 < (predsIn U succ m \ done).card := Finset.card_pos.mpr ⟨n, hnin⟩
          simp only [if_pos hms]
          rw [h1 m hm, hsd, Finset.card_erase_of_mem hnin]
          omega
        · have hnot : n ∉ predsIn U succ m \ done := by
            intro hc
            exact hms (Finset.mem_filter.mp (Finset.mem_sdiff.mp hc).1).2
          simp only [if_neg hms]
          rw [h1 m hm, hsd, Finset.erase_eq_of_not_mem hnot]
      have h2' : (rest ++ (succ n).filter (fun s => decide (indeg s - 1 = 0))).Nodup := by
        rw [List.nodup_append]
        refine ⟨(List.nodup_cons.mp h2).2, ((hnd n hnU).filter _), ?_⟩
        intro x hx hx'
        exact (hnews_fresh x hx').2 (List.mem_cons_of_mem _ hx)
      have h3' : ∀ x ∈ rest ++ (succ n).filter (fun s => decide (indeg s - 1 = 0)),
          x ∈ U ∧ x ∉ insert n done := by
        intro x hx
        rcases List.mem_append.mp hx with hxr | hxn
        · obtain ⟨hxu, hxd⟩ := h3 x (List.mem_cons_of_mem _ hxr)
          refine ⟨hxu, ?_⟩
          rw [Finset.mem_insert]
          rintro (rfl | hc)
          · exact hnrest hxr
          · exact hxd hc
        · obtain ⟨hxs, _⟩ := hnews x hxn
          obtain ⟨hxd, hxq⟩ := hnews_fresh x hxn
          refine ⟨hU n hnU x hxs, ?_⟩
          rw [Finset.mem_insert]
          rintro (rfl | hc)
          · exact hxq (List.mem_cons_self _ _)
          · exact hxd hc
      have h6' : ∀ m : Nat, (m ∈ insert n done ∨
          m ∈ rest ++ (succ n).filter (fun s => decide (indeg s - 1 = 0))) →
          predsIn U succ m ⊆ insert n done := by
        intro m hm
        rcases hm with hm | hm
        · rcases Finset.mem_insert.mp hm with rfl | hm
          · exact hpredn.trans (Finset.subset_insert _ _)
          · exact (h6 m (Or.inl hm)).trans (Finset.subset_insert _ _)
        · rcases List.mem_append.mp hm with hm | hm
          · exact (h6 m (Or.inr (List.mem_cons_of_mem _ hm))).trans (Finset.subset_insert _ _)
          · have hsing := hnews_sing m hm
            intro x hxp
            rw [Finset.mem_insert]
            by_cases hxd : x ∈ done
            · exact Or.inr hxd
            · left
              have : x ∈ predsIn U succ m \ done := Finset.mem_sdiff.mpr ⟨hxp, hxd⟩
              rw [hsing] at this
              exact Finset.mem_singleton.mp this
      have h4' : ∀ m ∈ U, m ∉ insert n done →
          m ∉ rest ++ (succ n).filter (fun s => decide (indeg s - 1 = 0)) →
          ∃ p ∈ U, p ∉ insert n done ∧ m ∈ succ p := by
        intro m hm hmdone hmq
        have hmn : m ≠ n := fun hc => hmdone (hc ▸ Finset.mem_insert_self _ _)
        have hmd : m ∉ done := fun hc => hmdone (Finset.mem_insert_of_mem hc)
        have hmrest : m ∉ rest := fun hc => hmq (List.mem_append.mpr (Or.inl hc))
        have hmnews : m ∉ (succ n).filter (fun s => decide (indeg s - 1 = 0)) :=
          fun hc => hmq (List.mem_append.mpr (Or.inr hc))
        obtain ⟨p, hpU, hpd, hps⟩ := h4 m hm hmd (by
          intro hc
          rcases List.mem_cons.mp hc with hc | hc
          · exact hmn hc
          · exact hmrest hc)
        by_cases hpn : p = n
        · subst hpn
          have hms : m ∈ succ p := hps
          have hmnotone : ¬(indeg m - 1 = 0) := by
            intro hc
            exact hmnews (List.mem_filter.mpr ⟨hms, decide_eq_true hc⟩)
          have hnin : p ∈ predsIn U succ m \ done :=
            Finset.mem_sdiff.mpr ⟨Finset.mem_filter.mpr ⟨hpU, hms⟩, hpd⟩
          have hcard1 : 0 < (predsIn U succ m \ done).card := Finset.card_pos.mpr ⟨p, hnin⟩
          have hindegm := h1 m hm
          have hcard2 : 1 < (predsIn U succ m \ done).card := by omega
          obtain ⟨q, hq, hqn⟩ := Finset.exists_ne_of_one_lt_card hcard2 p
          obtain ⟨hq1, hq2⟩ := Finset.mem_sdiff.mp hq
          obtain ⟨hqU, hqs⟩ := Finset.mem_filter.mp hq1
          refine ⟨q, hqU, ?_, hqs⟩
          rw [Finset.mem_insert]
          rintro (rfl | hc)
          · exact hqn rfl
          · exact hq2 hc
        · refine ⟨p, hpU, ?_, hps⟩
          rw [Finset.mem_insert]
          rintro (rfl | hc)
          · exact hpn rfl
          · exact hpd hc
      have hfuel' : (rest ++ (succ n).filter (fun s => decide (indeg s - 1 = 0))).length +
          (U.filter (fun x => 0 < (fun m =>
            if m ∈ succ n then indeg m - 1 else indeg m) x)).card + 1 ≤ fuel := by
        have hposset : U.filter (fun x => 0 <
            (fun m => if m ∈ succ n then indeg m - 1 else indeg m) x) =
              (U.filter (fun x => 0 < indeg x)) \
                ((succ n).filter (fun s => decide (indeg s - 1 = 0))).toFinset := by
          ext x
          simp only [Finset.mem_filter, Finset.mem_sdiff, List.mem_toFinset, List.mem_filter,
            decide_eq_true_eq]
          by_cases hxU : x ∈ U
          · have hnn : (0 : Int) ≤ indeg x := by
              rw [h1 x hxU]
              exact Int.natCast_nonneg _
            by_cases hxs : x ∈ succ n
            · rw [if_pos hxs]
              constructor
              · rintro ⟨-, h⟩
                refine ⟨⟨hxU, by omega⟩, ?_⟩
                rintro ⟨-, hz⟩
                omega
              · rintro ⟨⟨-, h⟩, hne⟩
                refine ⟨hxU, ?_⟩
                by_cases hz : indeg x - 1 = 0
                · exact absurd ⟨hxs, hz⟩ hne
                · omega
            · rw [if_neg hxs]
              constructor
              · rintro ⟨-, h⟩
                exact ⟨⟨hxU, h⟩, fun hc => hxs hc.1⟩
              · rintro ⟨⟨-, h⟩, -⟩
                exact ⟨hxU, h⟩
          · simp [hxU]
        have hsubnews : ((succ n).filter (fun s => decide (indeg s - 1 = 0))).toFinset ⊆
            U.filter (fun x => 0 < indeg x) := by
          intro x hx
          rw [List.mem_toFinset] at hx
          obtain ⟨hx1, hx2⟩ := hnews x hx
          rw [Finset.mem_filter]
          exact ⟨hU n hnU x hx1, by omega⟩
        have hc1 := Finset.card_sdiff hsubnews
        have hc2 := Finset.card_le_card hsubnews
        have hc3 : ((succ n).filter (fun s => decide (indeg s - 1 = 0))).toFinset.card =
            ((succ n).filter (fun s => decide (indeg s - 1 = 0))).length :=
          List.toFinset_card_of_nodup ((hnd n hnU).filter _)
        rw [hposset, List.length_append, hc1]
        simp only [List.length_cons] at hfuel
        omega
      obtain ⟨⟨hnodup', hmem'⟩, hcov', hgood', hres'⟩ :=
        ih (rest ++ (succ n).filter (fun s => decide (indeg s - 1 = 0)))
          (fun m => if m ∈ succ n then indeg m - 1 else indeg m)
          (insert n done) h1' h2' h3' h6' h4' hfuel'
      rw [hout]
      have hnout' : n ∉ kahnAux succ fuel
          (rest ++ (succ n).filter (fun s => decide (indeg s - 1 = 0)))
          (fun m => if m ∈ succ n then indeg m - 1 else indeg m) := by
        intro hc
        exact (hmem' n hc).2 (Finset.mem_insert_self _ _)
      refine ⟨⟨?_, ?_⟩, ?_, ?_, ?_⟩
      · exact List.nodup_cons.mpr ⟨hnout', hnodup'⟩
      · intro m hm
        rcases List.mem_cons.mp hm with rfl | hm
        · exact ⟨hnU, hndone⟩
        · obtain ⟨hm1, hm2⟩ := hmem' m hm
          exact ⟨hm1, fun hc => hm2 (Finset.mem_insert_of_mem hc)⟩
      · intro x hx
        rcases List.mem_cons.mp hx with rfl | hx
        · exact List.mem_cons_self _ _
        · exact List.mem_cons_of_mem _ (hcov' x (List.mem_append.mpr (Or.inl hx)))
      · exact ⟨hpredn, hgood'⟩
      · intro m hm hmdone hmout
        have hmn : m ≠ n := fun hc => hmout (hc ▸ List.mem_cons_self _ _)
        have hmout' : m ∉ kahnAux succ fuel
            (rest ++ (succ n).filter (fun s => decide (indeg s - 1 = 0)))
            (fun m => if m ∈ succ n then indeg m - 1 else indeg m) :=
          fun hc => hmout (List.mem_cons_of_mem _ hc)
        have hmdone' : m ∉ insert n done := by
          rw [Finset.mem_insert]
          rintro (rfl | hc)
          · exact hmn rfl
          · exact hmdone hc
        obtain ⟨p, hpU, hpd, hpo, hps⟩ := hres' m hm hmdone' hmout'
        have hpn : p ≠ n := fun hc => hpd (hc ▸ Finset.mem_insert_self _ _)
        refine ⟨p, hpU, fun hc => hpd (Finset.mem_insert_of_mem hc), ?_, hps⟩
        intro hc
        rcases List.mem_cons.mp hc with hc | hc
        · exact hpn hc
        · exact hpo hc

/-- A nonempty finite set in which every member has a predecessor inside the
set contains a directed cycle (by pigeonhole on iterated predecessors). -/
theorem exists_cycle_of_pred_closed (succ : NodeID → List NodeID) (S : Finset Nat)
    (hS : S.Nonempty) (hpred : ∀ m ∈ S, ∃ p ∈ S, m ∈ succ p) :
    ∃ n ∈ S, Relation.TransGen (Step succ) n n := by
  classical
  obtain ⟨m₀, hm₀⟩ := hS
  have hchoice : ∀ m : Nat, ∃ p : Nat, m ∈ S → (p ∈ S ∧ m ∈ succ p) := by
    intro m
    by_cases hm : m ∈ S
    · obtain ⟨p, hp1, hp2⟩ := hpred m hm
      exact ⟨p, fun _ => ⟨hp1, hp2⟩⟩
    · exact ⟨0, fun hc => absurd hc hm⟩
  choose f hf using hchoice
  have hiter : ∀ k : Nat, f^[k] m₀ ∈ S := by
    intro k
    induction k with
    | zero => exact hm₀
    | succ k ihk =>
      rw [Function.iterate_succ_apply']
      exact (hf _ ihk).1
  have hpath : ∀ (a d : Nat),
      Relation.TransGen (Step succ) (f^[a + d + 1] m₀) (f^[a] m₀) := by
    intro a d
    induction d with
    | zero =>
      rw [show a + 0 + 1 = a + 1 from rfl, Function.iterate_succ_apply']
      exact Relation.TransGen.single ((hf _ (hiter a)).2)
    | succ d ihd =>
      have hstep : Relation.TransGen (Step succ) (f^[a + d + 1 + 1] m₀) (f^[a + d + 1] m₀) := by
        rw [Function.iterate_succ_apply' f (a + d + 1)]
        exact Relation.TransGen.single ((hf _ (hiter (a + d + 1))).2)
      exact hstep.trans ihd
  obtain ⟨i, -, j, -, hij, heq⟩ :=
    Finset.exists_ne_map_eq_of_card_lt_of_maps_to
      (show S.card < (Finset.univ : Finset (Fin (S.card + 1))).card by simp)
      (fun i _ => hiter i.1)
  have hijv : i.1 ≠ j.1 := fun hc => hij (Fin.ext hc)
  rcases Nat.lt_or_ge i.1 j.1 with h | h
  · refine ⟨f^[i.1] m₀, hiter i.1, ?_⟩
    have hp := hpath i.1 (j.1 - i.1 - 1)
    have harith : i.1 + (j.1 - i.1 - 1) + 1 = j.1 := by omega
    rw [harith, ← heq] at hp
    exact hp
  · have h' : j.1 < i.1 := by omega
    refine ⟨f^[j.1] m₀, hiter j.1, ?_⟩
    have hp := hpath j.1 (i.1 - j.1 - 1)
    have harith : j.1 + (i.1 - j.1 - 1) + 1 = i.1 := by omega
    rw [harith, heq] at hp
    exact hp

/-- Along a `GoodOrder` list, no member of a predecessor-closed family
disjoint from `done` can occur. -/
theorem goodOrder_avoids (U : Finset Nat) (succ : NodeID → List NodeID) (W : Nat → Prop)
    (hWpred : ∀ x, W x → ∃ y, W y ∧ y ∈ U ∧ x ∈ succ y) :
    ∀ (l : List Nat) (done : Finset Nat), GoodOrder U succ done l →
      (∀ x, W x → x ∉ done) → ∀ x, W x → x ∉ l := by
  intro l
  induction l with
  | nil =>
    intro done _ _ x _
    simp
  | cons m rest ih =>
    intro done hgood hWdone x hWx
    obtain ⟨hpred, hgood'⟩ := hgood
    have hWm : ¬ W m := by
      intro hWm
      obtain ⟨y, hWy, hyU, hys⟩ := hWpred m hWm
      exact hWdone y hWy (hpred (Finset.mem_filter.mpr ⟨hyU, hys⟩))
    intro hx
    rcases List.mem_cons.mp hx with rfl | hx
    · exact hWm hWx
    · refine ih (insert m done) hgood' ?_ x hWx hx
      intro z hWz
      rw [Finset.mem_insert]
      rintro (rfl | hc)
      · exact hWm hWz
      · exact hWdone z hWz hc

/-- A node that is its own in-`U` predecessor never occurs in a `GoodOrder`
list disjoint from `done`. -/
theorem goodOrder_self_loop (U : Finset Nat) (succ : NodeID → List NodeID) (n : Nat)
    (hself : n ∈ predsIn U succ n) :
    ∀ (l : List Nat) (done : Finset Nat), GoodOrder U succ done l → n ∉ done → n ∉ l := by
  intro l
  induction l with
  | nil =>
    intro done _ _
    simp
  | cons m rest ih =>
    intro done hgood hnd
    obtain ⟨hpred, hgood'⟩ := hgood
    intro hx
    rcases List.mem_cons.mp hx with rfl | hx
    · exact hnd (hpred hself)
    · refine ih (insert m done) hgood' ?_ hx
      rw [Finset.mem_insert]
      rintro (rfl | hc)
      · exact hnd (hpred hself)
      · exact hnd hc

/-- Reachability stays inside a successor-closed node list. -/
theorem reach_mem_list (succ : NodeID → List NodeID) (nodes : List Nat)
    (hU : ∀ n ∈ nodes, ∀ m ∈ succ n, m ∈ nodes) {a b : Nat}
    (h : Relation.ReflTransGen (Step succ) a b) (ha : a ∈ nodes) : b ∈ nodes := by
  induction h with
  | refl => exact ha
  | tail h1 h2 ih => exact hU _ ih _ h2

/-- Summary of one run of the topological view over an abstract graph. -/
theorem topo_main (nodes : List Nat) (succ : NodeID → List NodeID)
    (hnodes : nodes.Nodup)
    (hnd : ∀ n ∈ nodes, (succ n).Nodup)
    (hU : ∀ n ∈ nodes, ∀ m ∈ succ n, m ∈ nodes) :
    ((topologicalList nodes succ).Nodup ∧
      (∀ m ∈ topologicalList nodes succ, m ∈ nodes)) ∧
    GoodOrder nodes.toFinset succ ∅ (topologicalList nodes succ) ∧
    (∀ m ∈ nodes, m ∉ topologicalList nodes succ →
      ∃ p ∈ nodes, p ∉ topologicalList nodes succ ∧ m ∈ succ p) := by
  have hU' : ∀ n ∈ nodes.toFinset, ∀ m ∈ succ n, m ∈ nodes.toFinset := by
    intro n hn m hm
    rw [List.mem_toFinset] at hn ⊢
    exact hU n hn m hm
  have hnd' : ∀ n ∈ nodes.toFinset, (succ n).Nodup :=
    fun n hn => hnd n (List.mem_toFinset.mp hn)
  have h1₀ : ∀ m ∈ nodes.toFinset, topoInDeg nodes succ m =
      (((predsIn nodes.toFinset succ m) \ ∅).card : Int) := by
    intro m _
    rw [Finset.sdiff_empty, topoInDeg_count nodes succ hnd m,
      count_eq_preds_card nodes hnodes succ m]
  have hseed : ∀ x ∈ topoSeed nodes succ, x ∈ nodes ∧ topoInDeg nodes succ x = 0 := by
    intro x hx
    obtain ⟨hx1, hx2⟩ := List.mem_filter.mp hx
    exact ⟨hx1, by simpa using hx2⟩
  have h2₀ : (topoSeed nodes succ).Nodup := hnodes.filter _
  have h3₀ : ∀ x ∈ topoSeed nodes succ, x ∈ nodes.toFinset ∧ x ∉ (∅ : Finset Nat) :=
    fun x hx => ⟨List.mem_toFinset.mpr (hseed x hx).1, Finset.not_mem_empty x⟩
  have h6₀ : ∀ m : Nat, (m ∈ (∅ : Finset Nat) ∨ m ∈ topoSeed nodes succ) →
      predsIn nodes.toFinset succ m ⊆ ∅ := by
    intro m hm
    rcases hm with hm | hm
    · exact absurd hm (Finset.not_mem_empty m)
    · obtain ⟨hm1, hm2⟩ := hseed m hm
      have hq := h1₀ m (List.mem_toFinset.mpr hm1)
      rw [hm2, Finset.sdiff_empty] at hq
      have hcard : (predsIn nodes.toFinset succ m).card = 0 := by exact_mod_cast hq.symm
      rw [Finset.card_eq_zero.mp hcard]
  have h4₀ : ∀ m ∈ nodes.toFinset, m ∉ (∅ : Finset Nat) → m ∉ topoSeed nodes succ →
      ∃ p ∈ nodes.toFinset, p ∉ (∅ : Finset Nat) ∧ m ∈ succ p := by
    intro m hm _ hmseed
    have hmn : m ∈ nodes := List.mem_toFinset.mp hm
    have hne : topoInDeg nodes succ m ≠ 0 := by
      intro hc
      exact hmseed (List.mem_filter.mpr ⟨hmn, by simpa using hc⟩)
    have hcard : (predsIn nodes.toFinset succ m).card ≠ 0 := by
      intro hc
      apply hne
      rw [h1₀ m hm, Finset.sdiff_empty, hc]
      rfl
    obtain ⟨p, hp⟩ := Finset.card_pos.mp (Nat.pos_of_ne_zero hcard)
    obtain ⟨hp1, hp2⟩ := Finset.mem_filter.mp hp
    exact ⟨p, hp1, Finset.not_mem_empty p, hp2⟩
  have hfuel₀ : (topoSeed nodes succ).length +
      (nodes.toFinset.filter (fun x => 0 < topoInDeg nodes succ x)).card + 1 ≤
      nodes.length + 2 := by
    have hseedset : (topoSeed nodes succ).toFinset ⊆ nodes.toFinset := by
      intro x hx
      rw [List.mem_toFinset] at hx ⊢
      exact (hseed x hx).1
    have hlen : (topoSeed nodes succ).length = (topoSeed nodes succ).toFinset.card :=
      (List.toFinset_card_of_nodup h2₀).symm
    have hdisj : Disjoint (topoSeed nodes succ).toFinset
        (nodes.toFinset.filter (fun x => 0 < topoInDeg nodes succ x)) := by
      rw [Finset.disjoint_left]
      intro x hx hx'
      have h0 := (hseed x (List.mem_toFinset.mp hx)).2
      have hpos := (Finset.mem_filter.mp hx').2
      omega
    have hunion := Finset.card_union_of_disjoint hdisj
    have hsub : (topoSeed nodes succ).toFinset ∪
        (nodes.toFinset.filter (fun x => 0 < topoInDeg nodes succ x)) ⊆ nodes.toFinset := by
      intro x hx
      rcases Finset.mem_union.mp hx with hx | hx
      · exact hseedset hx
      · exact Finset.filter_subset _ _ hx
    have hcardle := Finset.card_le_card hsub
    have htf := List.toFinset_card_le nodes
    omega
  obtain ⟨⟨hnodup, hmem⟩, hcov, hgood, hres⟩ :=
    kahnAux_main succ nodes.toFinset hU' hnd' (nodes.length + 2) (topoSeed nodes succ)
      (topoInDeg nodes succ) ∅ h1₀ h2₀ h3₀ h6₀ h4₀ hfuel₀
  refine ⟨⟨hnodup, fun m hm => List.mem_toFinset.mp (hmem m hm).1⟩, hgood, ?_⟩
  intro m hm hmout
  obtain ⟨p, hp1, _, hp3, hp4⟩ :=
    hres m (List.mem_toFinset.mpr hm) (Finset.not_mem_empty m) hmout
  exact ⟨p, List.mem_toFinset.mp hp1, hp3, hp4⟩

/-- The emitted topological sequence covers the whole node set exactly when
the graph is acyclic. -/
theorem topo_length_iff (nodes : List Nat) (succ : NodeID → List NodeID)
    (hnodes : nodes.Nodup)
    (hnd : ∀ n ∈ nodes, (succ n).Nodup)
    (hU : ∀ n ∈ nodes, ∀ m ∈ succ n, m ∈ nodes) :
    (topologicalList nodes succ).length = nodes.length ↔ ¬ HasCycleF nodes succ := by
  obtain ⟨⟨hnodup, hmem⟩, hgood, hres⟩ := topo_main nodes succ hnodes hnd hU
  constructor
  · intro hlen hcyc
    obtain ⟨n, hn, htrans⟩ := hcyc
    have hsub : (topologicalList nodes succ).toFinset ⊆ nodes.toFinset := by
      intro x hx
      rw [List.mem_toFinset] at hx ⊢
      exact hmem x hx
    have hcards : nodes.toFinset.card ≤ (topologicalList nodes succ).toFinset.card := by
      rw [List.toFinset_card_of_nodup hnodup, List.toFinset_card_of_nodup hnodes]
      omega
    have heq := Finset.eq_of_subset_of_card_le hsub hcards
    have hall : ∀ m ∈ nodes, m ∈ topologicalList nodes succ := by
      intro m hm
      have hmem2 : m ∈ (topologicalList nodes succ).toFinset := by
        rw [heq]
        exact List.mem_toFinset.mpr hm
      exact List.mem_toFinset.mp hmem2
    have havoid := goodOrder_avoids nodes.toFinset succ
      (fun x => Relation.TransGen (Step succ) n x ∧ Relation.TransGen (Step succ) x n)
      (by
        rintro x ⟨hnx, hxn⟩
        obtain ⟨y, hy1, hy2⟩ := Relation.TransGen.tail'_iff.mp hnx
        have hyU : y ∈ nodes := reach_mem_list succ nodes hU hy1 hn
        have hyn : Relation.TransGen (Step succ) y n := Relation.TransGen.head hy2 hxn
        have hny : Relation.TransGen (Step succ) n y := by
          rcases Relation.reflTransGen_iff_eq_or_transGen.mp hy1 with rfl | h
          · exact htrans
          · exact h
        exact ⟨y, ⟨hny, hyn⟩, List.mem_toFinset.mpr hyU, hy2⟩)
      (topologicalList nodes succ) ∅ hgood (fun x _ => Finset.not_mem_empty x)
      n ⟨htrans, htrans⟩
    exact havoid (hall n hn)
  · intro hnocyc
    by_contra hlen
    have hexists : ∃ m ∈ nodes, m ∉ topologicalList nodes succ := by
      by_contra hc
      push_neg at hc
      apply hlen
      have hsub1 : (topologicalList nodes succ).toFinset ⊆ nodes.toFinset := by
        intro x hx
        rw [List.mem_toFinset] at hx ⊢
        exact hmem x hx
      have hsub2 : nodes.toFinset ⊆ (topologicalList nodes succ).toFinset := by
        intro x hx
        rw [List.mem_toFinset] at hx ⊢
        exact hc x hx
      have heq := Finset.Subset.antisymm hsub1 hsub2
      rw [← List.toFinset_card_of_nodup hnodup, ← List.toFinset_card_of_nodup hnodes, heq]
    obtain ⟨m, hm, hmout⟩ := hexists
    have hSne : (nodes.toFinset.filter
        (fun x => x ∉ topologicalList nodes succ)).Nonempty :=
      ⟨m, Finset.mem_filter.mpr ⟨List.mem_toFinset.mpr hm, hmout⟩⟩
    have hSpred : ∀ x ∈ nodes.toFinset.filter (fun x => x ∉ topologicalList nodes succ),
        ∃ p ∈ nodes.toFinset.filter (fun x => x ∉ topologicalList nodes succ),
          x ∈ succ p := by
      intro x hx
      obtain ⟨hx1, hx2⟩ := Finset.mem_filter.mp hx
      obtain ⟨p, hp1, hp2, hp3⟩ := hres x (List.mem_toFinset.mp hx1) hx2
      exact ⟨p, Finset.mem_filter.mpr ⟨List.mem_toFinset.mpr hp1, hp2⟩, hp3⟩
    obtain ⟨n, hn, hcyc⟩ := exists_cycle_of_pred_closed succ _ hSne hSpred
    exact hnocyc ⟨n, List.mem_toFinset.mp (Finset.mem_filter.mp hn).1, hcyc⟩

/-! ## Claims C3 and C9 (traversal correctness) -/

theorem compile_successors_nodup (g : DirectedGraph) (hw : g.Wf) (n : Nat) :
    ((g.compile).successors n).Nodup := by
  by_cases h : n ≤ g.maxNodeId
  · rw [compile_successors g n h]
    exact sortedSucc_nodup hw n
  · rw [compile_successors_gt g n (Nat.not_le.mp h)]
    exact List.nodup_nil

/-- C3: from a start node present in the graph, the DFS and BFS views emit
exactly the set of nodes reachable from the start, each exactly once, with
the start node first — over both representations. -/
theorem claim_C3 (g : DirectedGraph) (hw : g.Wf) (s : Nat) :
    (s ∈ g.nodes →
      (((g.dfsList s).Nodup ∧ (∀ m : Nat, m ∈ g.dfsList s ↔ g.Reaches s m) ∧
          (g.dfsList s).head? = some s) ∧
        ((g.bfsList s).Nodup ∧ (∀ m : Nat, m ∈ g.bfsList s ↔ g.Reaches s m) ∧
          (g.bfsList s).head? = some s))) ∧
    (s ∈ (g.compile).nodes →
      ((((g.compile).dfsList s).Nodup ∧
          (∀ m : Nat, m ∈ (g.compile).dfsList s ↔ (g.compile).Reaches s m) ∧
          ((g.compile).dfsList s).head? = some s) ∧
        (((g.compile).bfsList s).Nodup ∧
          (∀ m : Nat, m ∈ (g.compile).bfsList s ↔ (g.compile).Reaches s m) ∧
          ((g.compile).bfsList s).head? = some s))) := by
  constructor
  · intro hs
    have hsU : s ∈ g.nodes.toFinset := List.mem_toFinset.mpr hs
    have hcard : g.nodes.toFinset.card ≤ g.node_count := by
      have := List.toFinset_card_le g.nodes
      rw [nodes_length g] at this
      exact this
    constructor
    · obtain ⟨h1, h2, h3⟩ := dfsAux_top g.succFn g.nodes.toFinset
        (nodes_toFinset_closed g hw) s hsU (g.node_count + 2) (by omega)
      exact ⟨h1, h2, h3⟩
    · obtain ⟨h1, h2, h3⟩ := bfsAux_top g.succFn g.nodes.toFinset
        (nodes_toFinset_closed g hw)
        (fun n _ => successors_nodup hw n) s hsU (g.node_count + 2) (by omega)
      exact ⟨h1, h2, h3⟩
  · intro hs
    have hsU : s ∈ (g.compile).nodes.toFinset := List.mem_toFinset.mpr hs
    have hcard : (g.compile).nodes.toFinset.card ≤ (g.compile).node_count :=
      List.toFinset_card_le (g.compile).nodes
    constructor
    · obtain ⟨h1, h2, h3⟩ := dfsAux_top (g.compile).succFn (g.compile).nodes.toFinset
        (compile_nodes_closed g hw) s hsU ((g.compile).node_count + 2) (by omega)
      exact ⟨h1, h2, h3⟩
    · obtain ⟨h1, h2, h3⟩ := bfsAux_top (g.compile).succFn (g.compile).nodes.toFinset
        (compile_nodes_closed g hw)
        (fun n _ => compile_successors_nodup g hw n) s hsU
        ((g.compile).node_count + 2) (by omega)
      exact ⟨h1, h2, h3⟩

theorem claim_C3_witness :
    (gEx.Wf ∧ 0 ∈ gEx.nodes) ∧
    (((gEx.dfsList 0).Nodup ∧ (∀ m : Nat, m ∈ gEx.dfsList 0 ↔ gEx.Reaches 0 m) ∧
        (gEx.dfsList 0).head? = some 0) ∧
      ((gEx.bfsList 0).Nodup ∧ (∀ m : Nat, m ∈ gEx.bfsList 0 ↔ gEx.Reaches 0 m) ∧
        (gEx.bfsList 0).head? = some 0)) :=
  ⟨⟨by decide, by decide⟩, (claim_C3 gEx (by decide) 0).1 (by decide)⟩

theorem dfsAux_isolated (succ : NodeID → List NodeID) (start : Nat)
    (h : succ start = []) (k : Nat) :
    dfsAux succ (k + 2) [start] [] = [start] := by
  have hstep : dfsAux succ (k + 2) [start] [] =
      start :: dfsAux succ (k + 1)
        (((succ start).filter
          (fun s => !((start :: ([] : List Nat)).contains s))).reverse ++ [])
        [start] := rfl
  rw [hstep, h]
  rfl

theorem bfsAux_isolated (succ : NodeID → List NodeID) (start : Nat)
    (h : succ start = []) (k : Nat) :
    bfsAux succ (k + 2) [start] [start] = [start] := by
  have hstep : bfsAux succ (k + 2) [start] [start] =
      start :: bfsAux succ (k + 1)
        (((succ start).foldl (fun (p : List NodeID × List NodeID) s =>
          if p.1.contains s then p else (s :: p.1, p.2 ++ [s])) ([start], [])).2)
        (((succ start).foldl (fun (p : List NodeID × List NodeID) s =>
          if p.1.contains s then p else (s :: p.1, p.2 ++ [s])) ([start], [])).1) := rfl
  rw [hstep, h]
  rfl

/-- C9: starting a DFS or BFS from an identifier absent from the graph (or
with an empty compiled successor range) emits exactly the one-element
sequence holding that identifier. -/
theorem claim_C9 :
    (∀ (g : DirectedGraph) (s : Nat), s ∉ g.nodes →
        g.dfsList s = [s] ∧ g.bfsList s = [s]) ∧
    (∀ (c : CompiledGraph) (s : Nat), c.successors s = [] →
        c.dfsList s = [s] ∧ c.bfsList s = [s]) := by
  constructor
  · intro g s hs
    have hsucc : g.succFn s = [] := successors_eq_nil hs
    exact ⟨dfsAux_isolated _ _ hsucc _, bfsAux_isolated _ _ hsucc _⟩
  · intro c s hs
    have hsucc : c.succFn s = [] := hs
    exact ⟨dfsAux_isolated _ _ hsucc _, bfsAux_isolated _ _ hsucc _⟩

theorem claim_C9_witness :
    (9 ∉ gEx.nodes ∧ (gEx.dfsList 9 = [9] ∧ gEx.bfsList 9 = [9])) ∧
    ((gEx.compile).successors 2 = [] ∧
      ((gEx.compile).dfsList 2 = [2] ∧ (gEx.compile).bfsList 2 = [2])) :=
  ⟨⟨by decide, claim_C9.1 gEx 9 (by decide)⟩,
   ⟨by decide, claim_C9.2 gEx.compile 2 (by decide)⟩⟩

/-! ## Claims C1 and C2 (topological view) -/

theorem isValid_iff_list (l : List Nat) : (!(l.isEmpty)) = true ↔ l ≠ [] := by
  simp [List.isEmpty_iff]

theorem mem_nodes_of_mem_successors {g : DirectedGraph} {a b : Nat}
    (h : b ∈ g.successors a) : a ∈ g.nodes := by
  unfold DirectedGraph.successors at h
  cases hf : g.findEntry a with
  | none =>
    rw [hf] at h
    exact absurd h (by simp)
  | some l => exact mem_nodes_of_findEntry hf

/-- C1 (amended): `is_valid()` reports non-emptiness of the emitted ordering,
not acyclicity; the ordering contains every node (its length equals
`node_count()`) exactly when the graph is acyclic — over both
representations. -/
theorem claim_C1 (g : DirectedGraph) (hw : g.Wf) :
    (g.topo_is_valid = true ↔ g.topoList ≠ []) ∧
    (g.topoList.length = g.node_count ↔ ¬ g.HasCycle) ∧
    ((g.compile).topo_is_valid = true ↔ (g.compile).topoList ≠ []) ∧
    ((g.compile).topoList.length = (g.compile).node_count ↔ ¬ (g.compile).HasCycle) := by
  refine ⟨isValid_iff_list _, ?_, isValid_iff_list _, ?_⟩
  · rw [← nodes_length g]
    exact topo_length_iff g.nodes g.succFn hw.1 (fun n _ => successors_nodup hw n)
      (fun n _ m hm => succ_closed hw hm)
  · show (topologicalList (g.compile).nodes (g.compile).succFn).length =
        (g.compile).nodes.length ↔ _
    exact topo_length_iff _ _ ((List.nodup_range _).filter _)
      (fun n _ => compile_successors_nodup g hw n)
      (fun n _ m hm => mem_compile_nodes_of_mem_successors g hw hm)

/-- C1 counterexample: on the compiled test graph (edges 0→1, 1→2, 0→2, 3→3)
`is_valid()` returns `true` although the graph has a cycle (the self-loop on
node 3) and the emitted sequence holds only 3 of the 4 nodes — refuting
"`is_valid()` iff acyclic" and "shorter than node count implies invalid". -/
theorem claim_C1_counterexample :
    (gEx.compile).topo_is_valid = true ∧
    (gEx.compile).HasCycle ∧
    (gEx.compile).topoList.length = 3 ∧
    (gEx.compile).node_count = 4 := by
  refine ⟨by decide,
    ⟨3, by decide, Relation.TransGen.single
      (show (3 : Nat) ∈ (gEx.compile).succFn 3 by decide)⟩, by decide, by decide⟩

theorem claim_C1_witness :
    gEx.Wf ∧
    ((gEx.topo_is_valid = true ↔ gEx.topoList ≠ []) ∧
     (gEx.topoList.length = gEx.node_count ↔ ¬ gEx.HasCycle) ∧
     ((gEx.compile).topo_is_valid = true ↔ (gEx.compile).topoList ≠ []) ∧
     ((gEx.compile).topoList.length = (gEx.compile).node_count ↔ ¬ (gEx.compile).HasCycle)) :=
  ⟨by decide, claim_C1 gEx (by decide)⟩

theorem gEx_no_incoming_3 : ∀ p : Nat, p ≠ 3 → gEx.has_edge p 3 = false := by
  intro p hp
  by_cases h0 : p = 0
  · subst h0
    rfl
  by_cases h1 : p = 1
  · subst h1
    rfl
  by_cases h2 : p = 2
  · subst h2
    rfl
  apply has_edge_eq_false
  show p ∉ ([0, 1, 2, 3] : List Nat)
  simp
  omega

/-- C2: on the graph built from edges 0→1, 1→2, 0→2, 3→3 the compiled
topological view emits exactly three nodes and node 3 is excluded; in
general, a node carrying a self-loop and no other incoming edge is never
emitted by the topological view. -/
theorem claim_C2 (g : DirectedGraph) (hw : g.Wf) (n : Nat)
    (hself : g.has_edge n n = true)
    (_hnoother : ∀ p : Nat, p ≠ n → g.has_edge p n = false) :
    ((gEx.compile).topoList.length = 3 ∧ 3 ∉ (gEx.compile).topoList) ∧
    n ∉ g.topoList := by
  constructor
  · exact ⟨by decide, by decide⟩
  · have hmem : n ∈ g.successors n := has_edge_iff_mem.mp hself
    have hnode : n ∈ g.nodes := mem_nodes_of_mem_successors hmem
    obtain ⟨⟨hnodup, hmemo⟩, hgood, hres⟩ := topo_main g.nodes g.succFn hw.1
      (fun m _ => successors_nodup hw m) (fun m _ k hk => succ_closed hw hk)
    exact goodOrder_self_loop g.nodes.toFinset g.succFn n
      (Finset.mem_filter.mpr ⟨List.mem_toFinset.mpr hnode, hmem⟩)
      g.topoList ∅ hgood (Finset.not_mem_empty n)

theorem claim_C2_witness :
    (gEx.Wf ∧ gEx.has_edge 3 3 = true ∧ (∀ p : Nat, p ≠ 3 → gEx.has_edge p 3 = false)) ∧
    (((gEx.compile).topoList.length = 3 ∧ 3 ∉ (gEx.compile).topoList) ∧ 3 ∉ gEx.topoList) :=
  ⟨⟨by decide, by decide, gEx_no_incoming_3⟩,
   claim_C2 gEx (by decide) 3 (by decide) gEx_no_incoming_3⟩

theorem claim_C5_witness :
    (gEx2.Wf ∧ gEx.Wf ∧ (∀ n : Nat, n ∈ gEx2.nodes ↔ n ∈ gEx.nodes) ∧
      (∀ a b : Nat, gEx2.has_edge a b = gEx.has_edge a b)) ∧
    ((gEx2.compile).offsets = (gEx.compile).offsets ∧
      (gEx2.compile).destinations = (gEx.compile).destinations) :=
  ⟨⟨by decide, by decide, gEx2_nodes_iff, gEx2_has_edge_eq⟩,
   claim_C5 gEx2 gEx (by decide) (by decide) gEx2_nodes_iff gEx2_has_edge_eq⟩

end GraphSpec
